import Mathlib

/-!
Verification of the Minijail seccomp policy compiler (`tools/compiler.py`).

The compiler turns a parsed policy (a list of per-syscall filter statements)
into a decision DAG: per-statement argument-comparison DAGs plus a dispatch
structure over syscall numbers, built with either a frequency-ordered linear
chain or a frequency-weighted binary search tree.

The source file `tools/compiler.py` is embedded faithfully below.  The node
types it consumes (`bpf.SyscallEntry`, `bpf.Atom`, `bpf.ValidateArch`, the
terminal actions) and the simulator live in the repository's `bpf` module,
which is not part of the sources provided here; those are modelled from the
specification (data model and the simulator / lowering / flattening
contracts), as noted on each such definition.
-/

set_option maxRecDepth 10000

namespace Minijail

/-- Modelled from the spec: terminal actions of the virtual machine
(`Action = Allow | Kill-variant | custom terminal`, spec §6); the repository's
`bpf` module defining them is not among the provided sources. -/
inductive Action where
  | allow : Action
  | kill : Action
  | trap : Action
  | errno (code : Nat) : Action
deriving DecidableEq, Repr, Inhabited

/-- Modelled from the spec: the comparison operators an atom may carry
(spec §6, `op : ComparisonOp`); defined in the missing `bpf`/`parser`
modules. -/
inductive AtomOp where
  | eq | ne | lt | le | gt | ge
deriving DecidableEq, Repr, Inhabited

/-- Modelled from the spec: evaluation of one comparison operator on an
argument value and an immediate (simulator contract, spec §4.4). -/
def evalAtomOp : AtomOp → Nat → Nat → Bool
  | .eq, x, v => x == v
  | .ne, x, v => x != v
  | .lt, x, v => x < v
  | .le, x, v => x ≤ v
  | .gt, x, v => v < x
  | .ge, x, v => v ≤ x

/-- Modelled from the spec: the two comparison modes of a dispatch node
(equality for the linear chain and leaves, unsigned greater-or-equal for BST
internal nodes; spec §3 "Dispatch node", §4.2).  These stand for the missing
`bpf` module's `BPF_JEQ` / `BPF_JGE` jump conditions. -/
inductive SyscallOp where
  | jeq | jge
deriving DecidableEq, Repr, Inhabited

/-- Modelled from the spec: a dispatch comparison `syscallNumber op value`;
the branch taken when it holds is the node's first (`jt`) successor. -/
def evalSyscallOp : SyscallOp → Nat → Nat → Bool
  | .jeq, nr, v => nr == v
  | .jge, nr, v => v ≤ nr

/-- Modelled from the spec: the IR node hierarchy of the missing `bpf`
module (spec §3 "Dispatch node", "Atom", "Action sentinels"; §4.3
architecture guard).  `validateArch` records the target architecture and the
kill action the guard routes to on mismatch. -/
inductive Node where
  | terminal (a : Action)
  | atomNode (argumentIndex : Nat) (op : AtomOp) (value : Nat) (jt jf : Node)
  | syscallEntry (op : SyscallOp) (number : Nat) (jt jf : Node)
  | validateArch (arch : Nat) (killAction : Action) (next : Node)
deriving DecidableEq, Repr, Inhabited

/-- Modelled from the spec: the simulator contract (spec §4.4) composed with
the lowering/flattening contract (spec §4.1): lowering and flattening
preserve the truth value of every comparison and the DAG's branch structure,
so simulating the flattened program equals interpreting the IR DAG.  The
architecture guard routes to its kill action when the running architecture
differs from the compiled one (spec §4.3). -/
def simulateNode (arch syscallNumber : Nat) (args : List Nat) : Node → Action
  | .terminal a => a
  | .atomNode i op v jt jf =>
      if evalAtomOp op (args.getD i 0) v then simulateNode arch syscallNumber args jt
      else simulateNode arch syscallNumber args jf
  | .syscallEntry op num jt jf =>
      if evalSyscallOp op syscallNumber num then simulateNode arch syscallNumber args jt
      else simulateNode arch syscallNumber args jf
  | .validateArch a k next =>
      if arch == a then simulateNode arch syscallNumber args next
      else k

/-- Modelled from the spec: one atomic comparison as produced by the parsing
collaborator (spec §6, `Atom { argument_index, op, value }`). -/
structure FilterAtom where
  argumentIndex : Nat
  op : AtomOp
  value : Nat
deriving DecidableEq, Repr, Inhabited

/-- Modelled from the spec: one clause of a filter statement (spec §6,
`FilterClause { expression: [[Atom]], action }`; outer list = disjunction,
inner = conjunction). -/
structure FilterClause where
  expression : List (List FilterAtom)
  action : Action
deriving DecidableEq, Repr, Inhabited

/-- Modelled from the spec: one parsed filter statement (spec §6,
`FilterStatement { syscall: {name, number}, frequency, filters }`, the
clause list non-empty). -/
structure FilterStatement where
  syscallName : String
  syscallNumber : Nat
  frequency : Nat
  filters : List FilterClause
deriving DecidableEq, Repr, Inhabited

/-- Modelled from the spec: the parsed policy handed over by the parsing
collaborator (spec §6, `PolicyFile { filter_statements, default_action }`). -/
structure ParsedPolicy where
  filterStatements : List FilterStatement
  defaultAction : Action
deriving DecidableEq, Repr, Inhabited

/-- Enumeration `OptimizationStrategy` from `tools/compiler.py`. -/
inductive OptimizationStrategy where
  | linear | bst
deriving DecidableEq, Repr, Inhabited

/-- Record `SyscallPolicyEntry` from `tools/compiler.py`: the compiled version of a
seccomp policy line.  `accumulated` starts at `0` and is filled in by the
BST dispatch compiler; `filter` is the statement's decision DAG, absent for
an unconditional allow. -/
structure SyscallPolicyEntry where
  name : String
  number : Nat
  frequency : Nat
  accumulated : Nat
  filter : Option Node
deriving DecidableEq, Repr, Inhabited

/-- Method `SyscallPolicyEntry.simulate` from `tools/compiler.py`: an entry with no
filter simulates as `ALLOW`; otherwise the filter DAG is interpreted (the
`bpf.simulate` call is the spec-modelled `simulateNode`). -/
def SyscallPolicyEntry.simulate (arch syscallNumber : Nat) (args : List Nat)
    (e : SyscallPolicyEntry) : Action :=
  match e.filter with
  | none => Action.allow
  | some f => simulateNode arch syscallNumber args f

/-- The node an entry dispatches to on a syscall-number match: its filter
DAG, or the shared accept action when it has none (the common branch of both
dispatch strategies in `tools/compiler.py`). -/
def entryTarget (acceptAction : Node) (e : SyscallPolicyEntry) : Node :=
  match e.filter with
  | some f => f
  | none => acceptAction

/-- The stable descending-frequency sort performed by
`_compile_entries_linear` (`entries.sort(key=lambda e: -e.frequency)`;
Python's sort is stable, as is insertion sort with a non-strict key
comparison). -/
def sortFreqDesc (entries : List SyscallPolicyEntry) : List SyscallPolicyEntry :=
  List.insertionSort (fun a b => b.frequency ≤ a.frequency) entries

/-- Function `_compile_entries_linear` from `tools/compiler.py`: sort by frequency
descending, then chain equality tests from the last sorted entry up, so the
most frequent syscall is tested first and the final mismatch path is the
reject action. -/
def compileEntriesLinear (entries : List SyscallPolicyEntry)
    (acceptAction rejectAction : Node) : Node :=
  (sortFreqDesc entries).reverse.foldl
    (fun nextAction entry =>
      Node.syscallEntry SyscallOp.jeq entry.number (entryTarget acceptAction entry) nextAction)
    rejectAction

/-- The stable ascending-syscall-number sort performed by
`_compile_entries_bst` (`entries.sort(key=lambda e: e.number)`). -/
def sortNumberAsc (entries : List SyscallPolicyEntry) : List SyscallPolicyEntry :=
  List.insertionSort (fun a b => a.number ≤ b.number) entries

/-- The accumulated-frequency scan of `_compile_entries_bst`: each entry's
`accumulated` field becomes the running sum of frequencies up to and
including it. -/
def setAccumulated : Nat → List SyscallPolicyEntry → List SyscallPolicyEntry
  | _, [] => []
  | acc, e :: rest =>
      let acc2 := acc + e.frequency
      { e with accumulated := acc2 } :: setAccumulated acc2 rest

/-- The exact integer value of the Python float literal `1e99` used as the
initial best-cost sentinel in `_generate_syscall_bst` (Python compares the
integer costs against this double exactly). -/
def bstSentinel : Int :=
  999999999999999967336168804116691273849533185806555472917961779471295845921727862608739868455469056

/-- Lexicographic minimum of two (cost, index) pairs, preferring the first
argument on full ties: Python's `min` on two tuples. -/
def pairMin (a b : Int × Int) : Int × Int :=
  if a.1 < b.1 then a
  else if b.1 < a.1 then b
  else if a.2 ≤ b.2 then a else b

/-- The candidate (cost, index) pair considered by the midpoint-selection
loop of `_generate_syscall_bst` for the entry at index `i`:
`(abs(left_accumulated - right_accumulated), i)`. -/
def bstCandidate (previousAccumulated lastAccumulated : Int) (i : Nat)
    (e : SyscallPolicyEntry) : Int × Int :=
  let leftAccumulated : Int := (e.accumulated : Int) - previousAccumulated
  let rightAccumulated : Int := lastAccumulated - leftAccumulated
  (abs (leftAccumulated - rightAccumulated), (i : Int))

/-- The midpoint-selection loop of `_generate_syscall_bst`
(`for i, entry in enumerate(entries): if not i: continue; best = min(best, ...)`). -/
def bestLoop (previousAccumulated lastAccumulated : Int) :
    Nat → List SyscallPolicyEntry → Int × Int → Int × Int
  | _, [], best => best
  | i, e :: rest, best =>
      let best2 :=
        if i = 0 then best
        else pairMin best (bstCandidate previousAccumulated lastAccumulated i e)
      bestLoop previousAccumulated lastAccumulated (i + 1) rest best2

/-- Quantity `previous_accumulated` in `_generate_syscall_bst`: the accumulated
frequency of everything before the current slice
(`entries[0].accumulated - entries[0].frequency`). -/
def bstPrevAccumulated (entries : List SyscallPolicyEntry) : Int :=
  ((entries.headD default).accumulated : Int) - ((entries.headD default).frequency : Int)

/-- Quantity `last_accumulated` in `_generate_syscall_bst`: the total frequency of
the current slice (`entries[-1].accumulated - previous_accumulated`). -/
def bstLastAccumulated (entries : List SyscallPolicyEntry) : Int :=
  ((entries.getLastD default).accumulated : Int) - bstPrevAccumulated entries

/-- The midpoint chosen by `_generate_syscall_bst`: the index component of
the best (cost, index) pair, starting from the sentinel pair `(1e99, -1)`. -/
def bstMidpoint (entries : List SyscallPolicyEntry) : Int :=
  (bestLoop (bstPrevAccumulated entries) (bstLastAccumulated entries) 0 entries
    (bstSentinel, -1)).2

/-- The recursion of `_generate_syscall_bst` from `tools/compiler.py`,
driven by a structural fuel argument (any fuel with `length ≤ fuel + 1`
gives the recursion room to finish, and `generateSyscallBst` below passes
the entry-list length).  Python `assert` failures (empty slice; a single
entry with collapsed bounds; a midpoint below 1; a tight left bound not
matching the entry just left of the midpoint) are modelled as `none`. -/
def genBstAux (acceptAction rejectAction : Node) :
    Nat → List SyscallPolicyEntry → Int → Int → Option Node
  | _, [], _, _ => none
  | _, [entry], lowerBound, upperBound =>
      if lowerBound < upperBound then
        some (Node.syscallEntry SyscallOp.jeq entry.number
          (entryTarget acceptAction entry) rejectAction)
      else none
  | 0, _ :: _ :: _, _, _ => none
  | fuel + 1, e0 :: e1 :: rest, lowerBound, upperBound =>
      if h : 1 ≤ bstMidpoint (e0 :: e1 :: rest) ∧
          (bstMidpoint (e0 :: e1 :: rest)).toNat < (e0 :: e1 :: rest).length then
        let m := (bstMidpoint (e0 :: e1 :: rest)).toNat
        let midEntry := (e0 :: e1 :: rest).get ⟨m, h.2⟩
        let rightResult : Option Node :=
          if (midEntry.number : Int) = upperBound then
            some (entryTarget acceptAction midEntry)
          else
            genBstAux acceptAction rejectAction fuel ((e0 :: e1 :: rest).drop m)
              (midEntry.number : Int) upperBound
        let leftResult : Option Node :=
          if lowerBound = (midEntry.number : Int) - 1 then
            let prevEntry := (e0 :: e1 :: rest).get ⟨m - 1, by omega⟩
            if (prevEntry.number : Int) = lowerBound then
              some (entryTarget acceptAction prevEntry)
            else none
          else
            genBstAux acceptAction rejectAction fuel ((e0 :: e1 :: rest).take m)
              lowerBound ((midEntry.number : Int) - 1)
        match rightResult, leftResult with
        | some rightSubtree, some leftSubtree =>
            some (Node.syscallEntry SyscallOp.jge midEntry.number rightSubtree leftSubtree)
        | _, _ => none
      else none

/-- Function `_generate_syscall_bst` from `tools/compiler.py`: the recursion started
with enough fuel for its slice. -/
def generateSyscallBst (acceptAction rejectAction : Node)
    (entries : List SyscallPolicyEntry) (lowerBound upperBound : Int) : Option Node :=
  genBstAux acceptAction rejectAction entries.length entries lowerBound upperBound

/-- Function `_compile_entries_bst` from `tools/compiler.py`: sort by syscall number,
fill in accumulated frequencies, then build the weighted binary search tree
over the full syscall-number domain `[0, 2^64 - 1]`. -/
def compileEntriesBst (entries : List SyscallPolicyEntry)
    (acceptAction rejectAction : Node) : Option Node :=
  generateSyscallBst acceptAction rejectAction
    (setAccumulated 0 (sortNumberAsc entries)) 0 ((2 : Int) ^ 64 - 1)

/-- The inner double loop of `PolicyCompiler.compile_filter_statement`: one
clause's contribution to the DAG under construction.  For each conjunction
(in declaration order) the atoms chain through their true branches down to
the clause's action, every false branch pointing at the DAG built so far;
the finished chain becomes the false target of the next conjunction. -/
def buildClauseStep (falseAction : Node) (filt : FilterClause) : Node :=
  filt.expression.foldl
    (fun falseAct conj =>
      conj.foldl
        (fun trueAct a => Node.atomNode a.argumentIndex a.op a.value trueAct falseAct)
        (Node.terminal filt.action))
    falseAction

/-- Method `PolicyCompiler.compile_filter_statement` from `tools/compiler.py`.  The
final clause's action seeds the false path; when it is unconditional allow
the entry is returned with no filter at all.  Otherwise the earlier clauses
are folded in reverse declaration order.  (The lowering and flattening
passes applied to the finished DAG are semantics-preserving per their
contracts and are not reflected in the IR-level model.) -/
def compileFilterStatement (fs : FilterStatement) : SyscallPolicyEntry :=
  let base : SyscallPolicyEntry :=
    { name := fs.syscallName, number := fs.syscallNumber, frequency := fs.frequency
      accumulated := 0, filter := none }
  let falseAction := (fs.filters.getLastD default).action
  if falseAction = Action.allow then base
  else
    { base with
        filter := some (fs.filters.dropLast.reverse.foldl buildClauseStep
          (Node.terminal falseAction)) }

/-- Method `PolicyCompiler.compile_file` from `tools/compiler.py`, starting from
the parsed policy (the parsing collaborator's output): compile each
statement, pick the dispatch strategy, and wrap the result in the
architecture guard.  With no entries the guard directly precedes the
default action.  A `none` result models the Python assertion failures
inside the BST builder. -/
def compileFile (arch : Nat) (optimizationStrategy : OptimizationStrategy)
    (killAction : Action) (parsedPolicy : ParsedPolicy) : Option Node :=
  let entries := parsedPolicy.filterStatements.map compileFilterStatement
  let acceptAction := Node.terminal Action.allow
  let rejectAction := Node.terminal parsedPolicy.defaultAction
  match entries with
  | [] => some (Node.validateArch arch killAction rejectAction)
  | _ :: _ =>
      match optimizationStrategy with
      | .bst =>
          (compileEntriesBst entries acceptAction rejectAction).map
            (Node.validateArch arch killAction)
      | .linear =>
          some (Node.validateArch arch killAction
            (compileEntriesLinear entries acceptAction rejectAction))

/-! ## Direct evaluation of a policy's clauses

The specification-side semantics a compiled program is compared against:
first matching clause's action, the final clause's action as fallback, the
policy default for syscall numbers with no statement. -/

/-- Direct evaluation of one atom against the argument tuple. -/
def evalAtom (args : List Nat) (a : FilterAtom) : Bool :=
  evalAtomOp a.op (args.getD a.argumentIndex 0) a.value

/-- Direct evaluation of a conjunction of atoms. -/
def evalConjunction (args : List Nat) (conj : List FilterAtom) : Bool :=
  conj.all (evalAtom args)

/-- Direct evaluation of a clause's expression (disjunction of
conjunctions). -/
def evalExpression (args : List Nat) (expr : List (List FilterAtom)) : Bool :=
  expr.any (evalConjunction args)

/-- First matching clause's action, else the fallback action. -/
def evalClauses (args : List Nat) : List FilterClause → Action → Action
  | [], fallbackAction => fallbackAction
  | c :: rest, fallbackAction =>
      if evalExpression args c.expression then c.action
      else evalClauses args rest fallbackAction

/-- Direct evaluation of one statement: the non-final clauses in order, the
final clause's action as the fallback. -/
def evalStatement (args : List Nat) (fs : FilterStatement) : Action :=
  evalClauses args fs.filters.dropLast (fs.filters.getLastD default).action

/-- Direct evaluation of a policy at a syscall number: the first statement
for that number, else the policy default. -/
def evalPolicy (parsedPolicy : ParsedPolicy) (syscallNumber : Nat)
    (args : List Nat) : Action :=
  match parsedPolicy.filterStatements.find?
      (fun fs => fs.syscallNumber == syscallNumber) with
  | some fs => evalStatement args fs
  | none => parsedPolicy.defaultAction

/-! ## Claim-level definitions -/

/-- The linear chain shape described by the spec: each node is an equality
test on the entry's syscall number, matching to the entry's filter DAG (or
the accept action), mismatching to the rest of the chain, the final
mismatch path being the reject action. -/
def linChain (acceptAction rejectAction : Node) : List SyscallPolicyEntry → Node
  | [] => rejectAction
  | e :: rest =>
      Node.syscallEntry SyscallOp.jeq e.number (entryTarget acceptAction e)
        (linChain acceptAction rejectAction rest)

/-- Lexicographic order on (cost, index) pairs: how Python compares the
tuples fed to `min` in `_generate_syscall_bst`. -/
def lexLe (a b : Int × Int) : Prop :=
  a.1 < b.1 ∨ (a.1 = b.1 ∧ a.2 ≤ b.2)

/-- Total frequency of a list of entries. -/
def sumFreq (l : List SyscallPolicyEntry) : Nat :=
  (l.map (fun e => e.frequency)).sum

/-- The entries' `accumulated` fields hold running frequency sums starting
from `acc`: the invariant `_compile_entries_bst` establishes before
recursing, preserved by taking and dropping. -/
def accumFrom : Nat → List SyscallPolicyEntry → Prop
  | _, [] => True
  | acc, e :: rest =>
      e.accumulated = acc + e.frequency ∧ accumFrom (acc + e.frequency) rest

/-- The cost actually minimized by `_generate_syscall_bst`: the absolute
difference between the total frequency of the entries at indices `0..i`
(midpoint included) and that of the entries strictly right of `i`. -/
def codeSplitCost (l : List SyscallPolicyEntry) (i : Nat) : Int :=
  abs ((sumFreq (l.take (i + 1)) : Int) - (sumFreq (l.drop (i + 1)) : Int))

/-- The split cost described by the specification: total frequency strictly
left of `i` against total frequency at and right of `i`. -/
def specSplitCost (l : List SyscallPolicyEntry) (i : Nat) : Int :=
  abs ((sumFreq (l.take i) : Int) - (sumFreq (l.drop i) : Int))

/-- The dispatch decision for a syscall number over an entry list: the first
entry with that number (its filter DAG, or the accept action), else the
reject action. -/
def dispatchTarget (acceptAction rejectAction : Node)
    (l : List SyscallPolicyEntry) (nr : Nat) : Node :=
  match l.find? (fun e => e.number == nr) with
  | some e => entryTarget acceptAction e
  | none => rejectAction

/-- The total frequency declared by a policy's statements. -/
def statementsTotalFrequency (p : ParsedPolicy) : Nat :=
  (p.filterStatements.map (fun fs => fs.frequency)).sum

/-- Chain shape of one conjunction, taking the atoms in reverse declaration
order: the node built for `a :: rest` tests `a` (the latest remaining atom
in declaration order); its true branch is the chain testing the earlier
atoms, bottoming out at the clause's action, and its false branch is the
conjunction's overall false path. -/
def conjShape (action failPath : Node) : List FilterAtom → Node
  | [] => action
  | a :: rest =>
      Node.atomNode a.argumentIndex a.op a.value (conjShape action failPath rest) failPath

/-- Chain shape of one clause's expression, taking the conjunctions in
reverse declaration order: each conjunction's overall false path is the
chain of the conjunctions declared before it, bottoming out at the clause's
false path. -/
def exprShape (action : Action) (falsePath : Node) : List (List FilterAtom) → Node
  | [] => falsePath
  | conj :: rest =>
      conjShape (Node.terminal action) (exprShape action falsePath rest) conj.reverse

/-- Shape of a statement's decision DAG: clauses in declaration order, each
clause's overall false path the shape of the later clauses, bottoming out
at the fallback action. -/
def clausesShape (fallback : Node) : List FilterClause → Node
  | [] => fallback
  | c :: rest => exprShape c.action (clausesShape fallback rest) c.expression.reverse

/-- The tree shape the spec ascribes to `_generate_syscall_bst`: a leaf is
an equality test falling back to the reject action; an internal node is an
unsigned `syscall number ≥ split` comparison whose first (taken-when-true)
branch is the right subtree; a subtree whose bound range collapses onto the
syscall number at its edge is replaced by that entry's action (its filter
DAG, or the accept action when it has none). -/
def BstShape (acceptAction rejectAction : Node) :
    List SyscallPolicyEntry → Int → Int → Node → Prop
  | l, lb, ub, Node.syscallEntry SyscallOp.jeq n jt jf =>
      ∃ entry, l = [entry] ∧ lb < ub ∧ n = entry.number ∧
        jt = entryTarget acceptAction entry ∧ jf = rejectAction
  | l, lb, ub, Node.syscallEntry SyscallOp.jge n rightSubtree leftSubtree =>
      ∃ m : Nat, 1 ≤ m ∧ m < l.length ∧ n = (l.getD m default).number ∧
        ((((l.getD m default).number : Int) = ub ∧
            rightSubtree = entryTarget acceptAction (l.getD m default)) ∨
          (((l.getD m default).number : Int) ≠ ub ∧
            BstShape acceptAction rejectAction (l.drop m)
              ((l.getD m default).number : Int) ub rightSubtree)) ∧
        ((lb = ((l.getD m default).number : Int) - 1 ∧
            leftSubtree = entryTarget acceptAction (l.getD (m - 1) default)) ∨
          (lb ≠ ((l.getD m default).number : Int) - 1 ∧
            BstShape acceptAction rejectAction (l.take m) lb
              (((l.getD m default).number : Int) - 1) leftSubtree))
  | _, _, _, _ => False

/-! ## Concrete fixtures -/

/-- The worked example of the spec (§8): `read` (number 0, frequency 100)
unconditionally allowed. -/
def exampleReadStatement : FilterStatement :=
  { syscallName := "read", syscallNumber := 0, frequency := 100,
    filters := [{ expression := [], action := Action.allow }] }

/-- The worked example of the spec (§8): `write` (number 1, frequency 50)
allowed when `arg0 == 1`, killed otherwise. -/
def exampleWriteStatement : FilterStatement :=
  { syscallName := "write", syscallNumber := 1, frequency := 50,
    filters := [{ expression := [[⟨0, AtomOp.eq, 1⟩]], action := Action.allow },
                { expression := [], action := Action.kill }] }

/-- The worked example policy of the spec (§8), default kill. -/
def examplePolicy : ParsedPolicy :=
  { filterStatements := [exampleReadStatement, exampleWriteStatement],
    defaultAction := Action.kill }

/-- A statement whose final clause's action is allow while an earlier
clause's action is kill: the default-allow shortcut drops the earlier
clause entirely. -/
def allowShortcutStatement : FilterStatement :=
  { syscallName := "victim", syscallNumber := 0, frequency := 1,
    filters := [{ expression := [[⟨0, AtomOp.eq, 1⟩]], action := Action.kill },
                { expression := [], action := Action.allow }] }

/-- A policy containing only `allowShortcutStatement`. -/
def allowShortcutPolicy : ParsedPolicy :=
  { filterStatements := [allowShortcutStatement], defaultAction := Action.errno 5 }

/-- A statement with one two-atom conjunction and a non-allow fallback. -/
def chainStatement : FilterStatement :=
  { syscallName := "chain", syscallNumber := 5, frequency := 1,
    filters := [{ expression := [[⟨0, AtomOp.eq, 1⟩, ⟨1, AtomOp.eq, 2⟩]],
                  action := Action.kill },
                { expression := [], action := Action.errno 1 }] }

/-- A plain unconditional-allow entry with the given number and frequency. -/
def plainEntry (nr freq : Nat) : SyscallPolicyEntry :=
  { name := "e", number := nr, frequency := freq, accumulated := 0, filter := none }

/-- Frequencies 1, 1, 4 on consecutive syscall numbers: the chosen split is
index 1 although the specification's split objective is smaller at 2. -/
def c4Entries : List SyscallPolicyEntry :=
  setAccumulated 0 [plainEntry 0 1, plainEntry 1 1, plainEntry 2 4]

/-- Two entries whose total frequency equals the exact integer value of the
float `1e99`: below `10 ^ 99`, yet the midpoint scan cannot beat the
sentinel. -/
def c10Entries : List SyscallPolicyEntry :=
  [plainEntry 0 999999999999999967336168804116691273849533185806555472917961779471295845921727862608739868455469056,
   plainEntry 1 0]

/-! ## Clause-level semantics of `compile_filter_statement` -/

theorem sim_conj_fold (arch nr : Nat) (args : List Nat) (conj : List FilterAtom) :
    ∀ (trueAct falseAct : Node),
      simulateNode arch nr args
          (conj.foldl
            (fun t a => Node.atomNode a.argumentIndex a.op a.value t falseAct) trueAct) =
        if evalConjunction args conj then simulateNode arch nr args trueAct
        else simulateNode arch nr args falseAct := by
  induction conj with
  | nil => intro t f; simp [evalConjunction]
  | cons a rest ih =>
      intro t f
      rw [List.foldl_cons, ih]
      by_cases ha : evalAtom args a
      · by_cases hr : evalConjunction args rest <;>
          simp [evalConjunction, simulateNode, evalAtom, List.all_cons] at ha hr ⊢ <;>
          simp [ha, hr]
      · have : evalConjunction args (a :: rest) = false := by
          simp [evalConjunction, List.all_cons] at ha ⊢
          simp [ha]
        rw [this]
        by_cases hr : evalConjunction args rest <;>
          simp [hr, simulateNode, evalAtom] at ha ⊢ <;> simp [ha]

theorem sim_buildClauseStep (arch nr : Nat) (args : List Nat) (filt : FilterClause) :
    ∀ falseAct : Node,
      simulateNode arch nr args (buildClauseStep falseAct filt) =
        if evalExpression args filt.expression then filt.action
        else simulateNode arch nr args falseAct := by
  unfold buildClauseStep
  generalize filt.expression = expr
  induction expr with
  | nil => intro f; simp [evalExpression]
  | cons conj rest ih =>
      intro f
      rw [List.foldl_cons, ih, sim_conj_fold]
      clear ih
      by_cases hc : evalConjunction args conj <;>
        by_cases hr : evalExpression args rest <;>
          simp_all [evalExpression, simulateNode]

theorem evalClauses_append_one (args : List Nat) (xs : List FilterClause)
    (c : FilterClause) (fb : Action) :
    evalClauses args (xs ++ [c]) fb =
      evalClauses args xs (if evalExpression args c.expression then c.action else fb) := by
  induction xs with
  | nil => simp [evalClauses]
  | cons x t ih => simp [evalClauses, ih]

theorem sim_clauses_fold (arch nr : Nat) (args : List Nat) :
    ∀ (l : List FilterClause) (fb : Node),
      simulateNode arch nr args (l.foldl buildClauseStep fb) =
        evalClauses args l.reverse (simulateNode arch nr args fb) := by
  intro l
  induction l with
  | nil => intro fb; simp [evalClauses]
  | cons c t ih =>
      intro fb
      rw [List.foldl_cons, ih, List.reverse_cons, evalClauses_append_one,
        sim_buildClauseStep]

/-- Simulating a compiled statement whose fallback action is not allow
equals direct evaluation of its clauses. -/
theorem sim_compileFilterStatement_of_ne_allow (arch nr : Nat) (args : List Nat)
    (fs : FilterStatement)
    (hna : (fs.filters.getLastD default).action ≠ Action.allow) :
    (compileFilterStatement fs).simulate arch nr args = evalStatement args fs := by
  unfold compileFilterStatement
  rw [if_neg hna]
  unfold SyscallPolicyEntry.simulate evalStatement
  simp only []
  rw [show fs.filters.dropLast.reverse.foldl buildClauseStep
        (Node.terminal (fs.filters.getLastD default).action) =
      (fs.filters.dropLast.reverse).foldl buildClauseStep
        (Node.terminal (fs.filters.getLastD default).action) from rfl]
  rw [sim_clauses_fold, List.reverse_reverse]
  simp [simulateNode]

/-- Simulating a compiled statement whose fallback action is allow yields
allow (the filter is omitted altogether). -/
theorem sim_compileFilterStatement_of_allow (arch nr : Nat) (args : List Nat)
    (fs : FilterStatement)
    (ha : (fs.filters.getLastD default).action = Action.allow) :
    (compileFilterStatement fs).filter = none ∧
      (compileFilterStatement fs).simulate arch nr args = Action.allow := by
  unfold compileFilterStatement
  rw [if_pos ha]
  exact ⟨rfl, rfl⟩

/-- When every clause's action is allow, direct evaluation with fallback
allow is allow whichever clause matches. -/
theorem evalClauses_allow (args : List Nat) (cs : List FilterClause)
    (hall : ∀ c ∈ cs, c.action = Action.allow) :
    evalClauses args cs Action.allow = Action.allow := by
  induction cs with
  | nil => rfl
  | cons c t ih =>
      simp only [evalClauses]
      by_cases h : evalExpression args c.expression
      · simp [h, hall c (by simp)]
      · simp [h]
        exact ih (fun x hx => hall x (by simp [hx]))

/-! ## The linear dispatch chain -/

theorem compileEntriesLinear_eq_linChain (entries : List SyscallPolicyEntry)
    (acceptAction rejectAction : Node) :
    compileEntriesLinear entries acceptAction rejectAction =
      linChain acceptAction rejectAction (sortFreqDesc entries) := by
  unfold compileEntriesLinear
  rw [List.foldl_reverse]
  induction sortFreqDesc entries with
  | nil => rfl
  | cons e t ih => rw [List.foldr_cons, linChain, ih]

theorem sim_linChain (arch nr : Nat) (args : List Nat)
    (acceptAction rejectAction : Node) (l : List SyscallPolicyEntry) :
    simulateNode arch nr args (linChain acceptAction rejectAction l) =
      match l.find? (fun e => e.number == nr) with
      | some e => simulateNode arch nr args (entryTarget acceptAction e)
      | none => simulateNode arch nr args rejectAction := by
  induction l with
  | nil => simp [linChain]
  | cons e t ih =>
      by_cases h : e.number = nr
      · simp [linChain, simulateNode, evalSyscallOp, List.find?, h]
      · have hb : (e.number == nr) = false := by simp [h]
        simp only [linChain, simulateNode, evalSyscallOp, List.find?, hb]
        rw [if_neg (by simp [Ne.symm h]), ih]

/-! ## Uniqueness of the dispatched entry -/

/-- In a list of entries with pairwise distinct syscall numbers, searching
for a number held by a member finds exactly that member. -/
theorem find_eq_some_of_distinct (nr : Nat) (l : List SyscallPolicyEntry)
    (hpw : l.Pairwise (fun a b => a.number ≠ b.number))
    (e : SyscallPolicyEntry) (he : e ∈ l) (hn : e.number = nr) :
    l.find? (fun x => x.number == nr) = some e := by
  induction l with
  | nil => cases he
  | cons x t ih =>
      rcases List.mem_cons.mp he with rfl | hm
      · simp [List.find?, hn]
      · have hx : x.number ≠ nr := by
          rw [← hn]
          exact (List.pairwise_cons.mp hpw).1 e hm
        have hb : (x.number == nr) = false := by simp [hx]
        simp only [List.find?, hb]
        exact ih (List.pairwise_cons.mp hpw).2 hm

/-- Permuting a distinct-numbered entry list does not change the entry
found by number. -/
theorem find_perm_of_distinct (nr : Nat) (l l' : List SyscallPolicyEntry)
    (hperm : l.Perm l')
    (hpw : l.Pairwise (fun a b => a.number ≠ b.number)) :
    l.find? (fun x => x.number == nr) = l'.find? (fun x => x.number == nr) := by
  cases h : l.find? (fun x => x.number == nr) with
  | none =>
      rw [List.find?_eq_none] at h
      rw [eq_comm, List.find?_eq_none]
      intro x hx
      exact h x (hperm.mem_iff.mpr hx)
  | some e =>
      have he : e ∈ l := List.mem_of_find?_eq_some h
      have hp := List.find?_some h
      have hpw' : l'.Pairwise (fun a b => a.number ≠ b.number) :=
        hperm.pairwise_iff (fun h => h.symm) |>.mp hpw
      rw [eq_comm]
      exact find_eq_some_of_distinct nr l' hpw' e (hperm.mem_iff.mp he)
        (by simpa using hp)

/-! ## Semantics of the BST dispatch -/

theorem pairwise_lt_ne (l : List SyscallPolicyEntry)
    (h : l.Pairwise (fun a b => a.number < b.number)) :
    l.Pairwise (fun a b => a.number ≠ b.number) :=
  h.imp fun hab => Nat.ne_of_lt hab

theorem sim_genBstAux (arch nr : Nat) (args : List Nat)
    (acceptAction rejectAction : Node) :
    ∀ (fuel : Nat) (l : List SyscallPolicyEntry) (lb ub : Int) (node : Node),
      l.length ≤ fuel + 1 →
      l.Pairwise (fun a b => a.number < b.number) →
      (∀ e ∈ l, lb ≤ (e.number : Int) ∧ (e.number : Int) ≤ ub) →
      lb ≤ (nr : Int) → (nr : Int) ≤ ub →
      genBstAux acceptAction rejectAction fuel l lb ub = some node →
      simulateNode arch nr args node =
        match l.find? (fun e => e.number == nr) with
        | some e => simulateNode arch nr args (entryTarget acceptAction e)
        | none => simulateNode arch nr args rejectAction := by
  intro fuel
  induction fuel with
  | zero =>
      intro l lb ub node hlen hsort hbnd hnr1 hnr2 hgen
      obtain _ | ⟨e, _ | ⟨e1, rest⟩⟩ := l
      · simp [genBstAux] at hgen
      · simp only [genBstAux] at hgen
        split at hgen
        · cases hgen
          by_cases hx : e.number = nr
          · simp [simulateNode, evalSyscallOp, List.find?, hx]
          · have hx2 : ¬nr = e.number := fun hh => hx hh.symm
            have hb : (e.number == nr) = false := by simp [hx]
            simp [simulateNode, evalSyscallOp, List.find?, hx, hx2, hb]
        · cases hgen
      · simp at hlen
  | succ fuel ih =>
      intro l lb ub node hlen hsort hbnd hnr1 hnr2 hgen
      obtain _ | ⟨e0, _ | ⟨e1, rest⟩⟩ := l
      · simp [genBstAux] at hgen
      · simp only [genBstAux] at hgen
        split at hgen
        · cases hgen
          by_cases hx : e0.number = nr
          · simp [simulateNode, evalSyscallOp, List.find?, hx]
          · have hx2 : ¬nr = e0.number := fun hh => hx hh.symm
            have hb : (e0.number == nr) = false := by simp [hx]
            simp [simulateNode, evalSyscallOp, List.find?, hx, hx2, hb]
        · cases hgen
      · rw [genBstAux] at hgen
        split at hgen
        case isFalse => cases hgen
        case isTrue h =>
          simp only [] at hgen
          set L := e0 :: e1 :: rest with hL
          set m := (bstMidpoint L).toNat with hmdef
          have hm1 : 1 ≤ m := by
            have := h.1
            omega
          have hmlen : m < L.length := h.2
          set midEntry := L.get ⟨m, hmlen⟩ with hmid
          have hsplit : L.take m ++ L.drop m = L := List.take_append_drop m L
          have hdropeq : L.drop m = midEntry :: L.drop (m + 1) :=
            List.drop_eq_get_cons hmlen
          have hpw_app := List.pairwise_append.mp (hsplit ▸ hsort)
          have htake_lt : ∀ a ∈ L.take m, a.number < midEntry.number := by
            intro a ha
            exact hpw_app.2.2 a ha midEntry (by rw [hdropeq]; exact List.mem_cons_self _ _)
          have hsort_drop : (L.drop m).Pairwise (fun a b => a.number < b.number) :=
            hsort.sublist (List.drop_sublist m L)
          have hsort_take : (L.take m).Pairwise (fun a b => a.number < b.number) :=
            hsort.sublist (List.take_sublist m L)
          have hdrop_ge : ∀ b ∈ L.drop m, midEntry.number ≤ b.number := by
            intro b hb
            rw [hdropeq] at hb
            rcases List.mem_cons.mp hb with rfl | hb'
            · exact Nat.le_refl _
            · exact Nat.le_of_lt
                ((List.pairwise_cons.mp (hdropeq ▸ hsort_drop)).1 b hb')
          have hmem_drop : ∀ b ∈ L.drop m, b ∈ L :=
            fun b hb => (List.drop_sublist m L).mem hb
          have hmem_take : ∀ a ∈ L.take m, a ∈ L :=
            fun a ha => (List.take_sublist m L).mem ha
          split at hgen
          case h_2 => cases hgen
          case h_1 rightSubtree leftSubtree heqr heql =>
            cases hgen
            simp only [simulateNode, evalSyscallOp]
            by_cases hcmp : midEntry.number ≤ nr
            · -- goes right
              rw [if_pos (by simpa using hcmp)]
              have hnomatch_take : ∀ a ∈ L.take m, ¬((fun e => e.number == nr) a = true) := by
                intro a ha
                have := htake_lt a ha
                simp only [beq_iff_eq]
                omega
              have hfindL : L.find? (fun e => e.number == nr) =
                  (L.drop m).find? (fun e => e.number == nr) := by
                conv_lhs => rw [← hsplit]
                rw [List.find?_append, List.find?_eq_none.mpr hnomatch_take,
                  Option.none_or]
              split at heqr
              · -- tight right bound: the midpoint entry is the subtree
                rename_i hub
                cases heqr
                have hnrmid : nr = midEntry.number := by omega
                rw [hfindL, hdropeq]
                have : (midEntry.number == nr) = true := by simp [hnrmid]
                simp [List.find?, this]
              · -- recursive right subtree
                rename_i hub
                have hres := ih (L.drop m) (midEntry.number : Int) ub rightSubtree
                  (by simp only [List.length_drop]; omega)
                  hsort_drop
                  (by
                    intro e he
                    exact ⟨by exact_mod_cast hdrop_ge e he, (hbnd e (hmem_drop e he)).2⟩)
                  (by exact_mod_cast hcmp) hnr2 heqr
                rw [hres, hfindL]
            · -- goes left
              rw [if_neg (by simpa using hcmp)]
              push_neg at hcmp
              have hnomatch_drop : ∀ b ∈ L.drop m, ¬((fun e => e.number == nr) b = true) := by
                intro b hb
                have := hdrop_ge b hb
                simp only [beq_iff_eq]
                omega
              have hfindL : L.find? (fun e => e.number == nr) =
                  (L.take m).find? (fun e => e.number == nr) := by
                conv_lhs => rw [← hsplit]
                rw [List.find?_append, List.find?_eq_none.mpr hnomatch_drop,
                  Option.or_none]
              split at heql
              · -- tight left bound: the entry just left of the midpoint
                rename_i hlb
                split at heql
                · rename_i hprev
                  cases heql
                  set prevEntry := L.get ⟨m - 1, by omega⟩ with hprevdef
                  have hnrprev : (nr : Int) = lb := by omega
                  have hnr_eq : prevEntry.number = nr := by
                    have := hprev
                    omega
                  have hprev_take : prevEntry ∈ L.take m := by
                    have h1 : (L.take m)[m - 1]? = L[m - 1]? :=
                      List.getElem?_take_of_lt (by omega)
                    have h2 : L[m - 1]? = some prevEntry := by
                      rw [List.getElem?_eq_getElem (show m - 1 < L.length by omega)]
                      simp [hprevdef, List.get_eq_getElem]
                    exact List.mem_iff_getElem?.mpr ⟨m - 1, h1.trans h2⟩
                  rw [hfindL,
                    find_eq_some_of_distinct nr (L.take m)
                      (pairwise_lt_ne _ hsort_take) prevEntry hprev_take hnr_eq]
                · cases heql
              · -- recursive left subtree
                rename_i hlb
                have hres := ih (L.take m) lb ((midEntry.number : Int) - 1) leftSubtree
                  (by simp only [List.length_take]; omega)
                  hsort_take
                  (by
                    intro e he
                    refine ⟨(hbnd e (hmem_take e he)).1, ?_⟩
                    have := htake_lt e he
                    omega)
                  hnr1
                  (by omega)
                  heql
                rw [hres, hfindL]

/-! ## Characterization of the BST midpoint selection -/

theorem lexLe_refl (a : Int × Int) : lexLe a a := Or.inr ⟨rfl, le_refl _⟩

theorem lexLe_trans {a b c : Int × Int} (h1 : lexLe a b) (h2 : lexLe b c) :
    lexLe a c := by
  rcases h1 with h1 | ⟨h1, h1'⟩ <;> rcases h2 with h2 | ⟨h2, h2'⟩
  · exact Or.inl (h1.trans h2)
  · exact Or.inl (h2 ▸ h1)
  · exact Or.inl (h1 ▸ h2)
  · exact Or.inr ⟨h1.trans h2, h1'.trans h2'⟩

theorem pairMin_eq_or (a b : Int × Int) : pairMin a b = a ∨ pairMin a b = b := by
  unfold pairMin
  split
  · exact Or.inl rfl
  · split
    · exact Or.inr rfl
    · split
      · exact Or.inl rfl
      · exact Or.inr rfl

theorem pairMin_le_left (a b : Int × Int) : lexLe (pairMin a b) a := by
  unfold pairMin
  split
  · exact lexLe_refl a
  · split
    · exact Or.inl (by omega)
    · split
      · exact lexLe_refl a
      · exact Or.inr ⟨by omega, by omega⟩

theorem pairMin_le_right (a b : Int × Int) : lexLe (pairMin a b) b := by
  unfold pairMin
  split
  · exact Or.inl (by omega)
  · split
    · exact lexLe_refl b
    · split
      · exact Or.inr ⟨by omega, by assumption⟩
      · exact lexLe_refl b

theorem bestLoop_le_init (pa la : Int) :
    ∀ (l : List SyscallPolicyEntry) (i0 : Nat) (best : Int × Int),
      lexLe (bestLoop pa la i0 l best) best := by
  intro l
  induction l with
  | nil => intro i0 best; exact lexLe_refl best
  | cons e t ih =>
      intro i0 best
      rw [bestLoop]
      by_cases h0 : i0 = 0
      · simp only [h0, if_pos rfl]
        exact ih 1 best
      · rw [if_neg h0]
        exact lexLe_trans (ih (i0 + 1) _) (pairMin_le_left _ _)

theorem bestLoop_mem (pa la : Int) :
    ∀ (l : List SyscallPolicyEntry) (i0 : Nat) (best : Int × Int),
      bestLoop pa la i0 l best = best ∨
        ∃ j : Nat, j < l.length ∧ 0 < i0 + j ∧
          bestLoop pa la i0 l best = bstCandidate pa la (i0 + j) (l.getD j default) := by
  intro l
  induction l with
  | nil => intro i0 best; exact Or.inl rfl
  | cons e t ih =>
      intro i0 best
      rw [bestLoop]
      by_cases h0 : i0 = 0
      · subst h0
        rcases ih 1 best with h | ⟨j, hj, hpos, heq⟩
        · exact Or.inl (by simpa using h)
        · refine Or.inr ⟨j + 1, by simpa using Nat.succ_lt_succ hj, by omega, ?_⟩
          have harg : 0 + (j + 1) = 1 + j := by omega
          rw [harg]
          simpa using heq
      · rw [if_neg h0]
        rcases ih (i0 + 1) (pairMin best (bstCandidate pa la i0 e)) with
          h | ⟨j, hj, hpos, heq⟩
        · rcases pairMin_eq_or best (bstCandidate pa la i0 e) with hm | hm
          · exact Or.inl (h.trans hm)
          · refine Or.inr ⟨0, by simp, by omega, ?_⟩
            rw [h, hm]
            simp
        · refine Or.inr ⟨j + 1, by simpa using Nat.succ_lt_succ hj, by omega, ?_⟩
          rw [heq]
          have harg : i0 + 1 + j = i0 + (j + 1) := by omega
          rw [harg]
          simp

theorem bestLoop_le_cand (pa la : Int) :
    ∀ (l : List SyscallPolicyEntry) (i0 : Nat) (best : Int × Int)
      (j : Nat), j < l.length → 0 < i0 + j →
      lexLe (bestLoop pa la i0 l best)
        (bstCandidate pa la (i0 + j) (l.getD j default)) := by
  intro l
  induction l with
  | nil => intro i0 best j hj; cases hj
  | cons e t ih =>
      intro i0 best j hj hpos
      rw [bestLoop]
      match j with
      | 0 =>
          have h0 : ¬i0 = 0 := by omega
          rw [if_neg h0]
          simpa using lexLe_trans (bestLoop_le_init pa la t (i0 + 1) _)
            (pairMin_le_right _ _)
      | j' + 1 =>
          have hj' : j' < t.length := by simpa using Nat.lt_of_succ_lt_succ hj
          have hrec := ih (i0 + 1) (if i0 = 0 then best else
            pairMin best (bstCandidate pa la i0 e)) j' hj' (by omega)
          have harg : i0 + 1 + j' = i0 + (j' + 1) := by omega
          rw [harg] at hrec
          simpa using hrec

/-- The midpoint chosen for a slice of two or more entries, provided the
candidate at index 1 beats the sentinel, is a candidate index in `[1, n)`
that lexicographically minimizes (cost, index) over all candidates. -/
theorem bstMidpoint_spec (l : List SyscallPolicyEntry) (h2 : 2 ≤ l.length)
    (hc : (bstCandidate (bstPrevAccumulated l) (bstLastAccumulated l) 1
      (l.getD 1 default)).1 < bstSentinel) :
    ∃ j : Nat, j < l.length ∧ 1 ≤ j ∧ bstMidpoint l = (j : Int) ∧
      ∀ i : Nat, i < l.length → 1 ≤ i →
        lexLe (bstCandidate (bstPrevAccumulated l) (bstLastAccumulated l) j
            (l.getD j default))
          (bstCandidate (bstPrevAccumulated l) (bstLastAccumulated l) i
            (l.getD i default)) := by
  set pa := bstPrevAccumulated l
  set la := bstLastAccumulated l
  have hle1 : lexLe (bestLoop pa la 0 l (bstSentinel, -1))
      (bstCandidate pa la 1 (l.getD 1 default)) := by
    have h := bestLoop_le_cand pa la l 0 (bstSentinel, -1) 1 (by omega) (by omega)
    simpa using h
  rcases bestLoop_mem pa la l 0 (bstSentinel, -1) with h | ⟨j, hj, hpos, heq⟩
  · exfalso
    rw [h] at hle1
    rcases hle1 with hlt | ⟨heq1, _⟩
    · simp only at hlt
      omega
    · simp only at heq1
      omega
  · have hj1 : 1 ≤ j := by omega
    refine ⟨j, hj, hj1, ?_, ?_⟩
    · rw [bstMidpoint, heq]
      simp [bstCandidate]
    · intro i hi hi1
      have hle := bestLoop_le_cand pa la l 0 (bstSentinel, -1) i hi (by omega)
      rw [heq] at hle
      simpa using hle

/-! ## Accumulated frequencies -/

theorem accumFrom_setAccumulated : ∀ (l : List SyscallPolicyEntry) (acc : Nat),
    accumFrom acc (setAccumulated acc l) := by
  intro l
  induction l with
  | nil => intro acc; trivial
  | cons e t ih => intro acc; exact ⟨rfl, ih (acc + e.frequency)⟩

theorem sumFreq_append (l1 l2 : List SyscallPolicyEntry) :
    sumFreq (l1 ++ l2) = sumFreq l1 + sumFreq l2 := by
  simp [sumFreq]

theorem sumFreq_take_add_drop (l : List SyscallPolicyEntry) (k : Nat) :
    sumFreq (l.take k) + sumFreq (l.drop k) = sumFreq l := by
  rw [← sumFreq_append, List.take_append_drop]

theorem accumFrom_getD : ∀ (l : List SyscallPolicyEntry) (acc j : Nat),
    accumFrom acc l → j < l.length →
    (l.getD j default).accumulated = acc + sumFreq (l.take (j + 1)) := by
  intro l
  induction l with
  | nil => intro acc j _ hj; cases hj
  | cons e t ih =>
      intro acc j hacc hj
      match j with
      | 0 => simpa [sumFreq] using hacc.1
      | j' + 1 =>
          have := ih (acc + e.frequency) j' hacc.2 (by simpa using hj)
          simp only [List.getD_cons_succ, List.take_succ_cons]
          rw [this]
          simp [sumFreq]
          omega

theorem accumFrom_take : ∀ (l : List SyscallPolicyEntry) (acc k : Nat),
    accumFrom acc l → accumFrom acc (l.take k) := by
  intro l
  induction l with
  | nil => intro acc k _; simp; trivial
  | cons e t ih =>
      intro acc k hacc
      match k with
      | 0 => trivial
      | k' + 1 => exact ⟨hacc.1, ih (acc + e.frequency) k' hacc.2⟩

theorem accumFrom_drop : ∀ (l : List SyscallPolicyEntry) (acc k : Nat),
    accumFrom acc l → accumFrom (acc + sumFreq (l.take k)) (l.drop k) := by
  intro l
  induction l with
  | nil => intro acc k _; simp; trivial
  | cons e t ih =>
      intro acc k hacc
      match k with
      | 0 => simpa [sumFreq] using hacc
      | k' + 1 =>
          have := ih (acc + e.frequency) k' hacc.2
          simp only [List.drop_succ_cons, List.take_succ_cons]
          have harr : acc + sumFreq (e :: t.take k') =
              acc + e.frequency + sumFreq (t.take k') := by
            simp [sumFreq]
            omega
          rw [harr]
          exact this

theorem getLastD_eq_getD : ∀ (l : List SyscallPolicyEntry),
    l ≠ [] → ∀ d, l.getLastD d = l.getD (l.length - 1) d := by
  intro l
  induction l with
  | nil => intro h; cases h rfl
  | cons e t ih =>
      intro _ d
      match t, ih with
      | [], _ => rfl
      | e1 :: t1, ih =>
          rw [List.getLastD_cons, ih (by simp) e]
          simp

theorem bstPrevAccumulated_eq (l : List SyscallPolicyEntry) (acc : Nat)
    (hne : l ≠ []) (hacc : accumFrom acc l) :
    bstPrevAccumulated l = (acc : Int) := by
  obtain ⟨e, t, rfl⟩ := List.exists_cons_of_ne_nil hne
  unfold bstPrevAccumulated
  simp only [List.headD_cons]
  rw [hacc.1]
  push_cast
  ring

theorem bstLastAccumulated_eq (l : List SyscallPolicyEntry) (acc : Nat)
    (hne : l ≠ []) (hacc : accumFrom acc l) :
    bstLastAccumulated l = (sumFreq l : Int) := by
  unfold bstLastAccumulated
  rw [bstPrevAccumulated_eq l acc hne hacc]
  have hlen : 0 < l.length := List.length_pos.mpr hne
  have hgl : l.getLastD default = l.getD (l.length - 1) default :=
    getLastD_eq_getD l hne default
  rw [hgl, accumFrom_getD l acc (l.length - 1) hacc (by omega)]
  have : l.take (l.length - 1 + 1) = l := by
    apply List.take_of_length_le
    omega
  rw [this]
  push_cast
  ring

theorem bstCandidate_cost_eq (l : List SyscallPolicyEntry) (acc i : Nat)
    (hne : l ≠ []) (hacc : accumFrom acc l) (hi : i < l.length) :
    (bstCandidate (bstPrevAccumulated l) (bstLastAccumulated l) i
      (l.getD i default)).1 = codeSplitCost l i := by
  unfold bstCandidate codeSplitCost
  rw [bstPrevAccumulated_eq l acc hne hacc, bstLastAccumulated_eq l acc hne hacc,
    accumFrom_getD l acc i hacc hi]
  have hsum := sumFreq_take_add_drop l (i + 1)
  simp only []
  congr 1
  push_cast
  omega

theorem bstCandidate_eq_pair (l : List SyscallPolicyEntry) (acc i : Nat)
    (hne : l ≠ []) (hacc : accumFrom acc l) (hi : i < l.length) :
    bstCandidate (bstPrevAccumulated l) (bstLastAccumulated l) i
        (l.getD i default) =
      (codeSplitCost l i, (i : Int)) :=
  Prod.ext (bstCandidate_cost_eq l acc i hne hacc hi) rfl

theorem codeSplitCost_le_total (l : List SyscallPolicyEntry) (i : Nat) :
    codeSplitCost l i ≤ (sumFreq l : Int) := by
  unfold codeSplitCost
  have hsum := sumFreq_take_add_drop l (i + 1)
  rw [abs_le]
  constructor <;> push_cast <;> omega

/-! ## The BST builder succeeds (all Python assertions hold) -/

theorem isSome_matchPair (x y : Option Node) (f : Node → Node → Node)
    (hx : x.isSome) (hy : y.isSome) :
    (match x, y with
     | some a, some b => some (f a b)
     | _, _ => none).isSome := by
  cases x <;> cases y <;> simp_all

theorem genBstAux_isSome (acceptAction rejectAction : Node) :
    ∀ (fuel : Nat) (l : List SyscallPolicyEntry) (acc : Nat) (lb ub : Int),
      l.length ≤ fuel + 1 →
      l ≠ [] →
      l.Pairwise (fun a b => a.number < b.number) →
      (∀ e ∈ l, lb ≤ (e.number : Int) ∧ (e.number : Int) ≤ ub) →
      lb < ub →
      accumFrom acc l →
      (sumFreq l : Int) < bstSentinel →
      (genBstAux acceptAction rejectAction fuel l lb ub).isSome := by
  intro fuel
  induction fuel with
  | zero =>
      intro l acc lb ub hlen hne hsort hbnd hlt hacc htot
      obtain _ | ⟨e, _ | ⟨e1, rest⟩⟩ := l
      · cases hne rfl
      · simp [genBstAux, hlt]
      · simp at hlen
  | succ fuel ih =>
      intro l acc lb ub hlen hne hsort hbnd hlt hacc htot
      obtain _ | ⟨e0, _ | ⟨e1, rest⟩⟩ := l
      · cases hne rfl
      · simp [genBstAux, hlt]
      · set L := e0 :: e1 :: rest with hL
        have h2 : 2 ≤ L.length := by simp [hL]
        have hc1cost : (bstCandidate (bstPrevAccumulated L) (bstLastAccumulated L) 1
            (L.getD 1 default)).1 < bstSentinel := by
          rw [bstCandidate_cost_eq L acc 1 (by simp [hL]) hacc (by simp [hL])]
          calc codeSplitCost L 1 ≤ (sumFreq L : Int) := codeSplitCost_le_total L 1
            _ < bstSentinel := htot
        obtain ⟨j, hjlen, hj1, hmid, _hmin⟩ := bstMidpoint_spec L h2 hc1cost
        have hguard : 1 ≤ bstMidpoint L ∧ (bstMidpoint L).toNat < L.length := by
          rw [hmid]
          constructor
          · exact_mod_cast hj1
          · simpa using hjlen
        rw [genBstAux]
        rw [dif_pos hguard]
        set m := (bstMidpoint L).toNat with hmdef
        have hmj : m = j := by rw [hmdef, hmid]; simp
        have hm1 : 1 ≤ m := by omega
        have hmlen : m < L.length := hguard.2
        set midEntry := L.get ⟨m, hguard.2⟩ with hmiddef
        have hmidmem : midEntry ∈ L := List.get_mem L m hguard.2
        have hsplit : L.take m ++ L.drop m = L := List.take_append_drop m L
        have hdropeq : L.drop m = midEntry :: L.drop (m + 1) :=
          List.drop_eq_get_cons hmlen
        have hpw_app := List.pairwise_append.mp (hsplit ▸ hsort)
        have htake_lt : ∀ a ∈ L.take m, a.number < midEntry.number := by
          intro a ha
          exact hpw_app.2.2 a ha midEntry (by rw [hdropeq]; exact List.mem_cons_self _ _)
        have hsort_drop : (L.drop m).Pairwise (fun a b => a.number < b.number) :=
          hsort.sublist (List.drop_sublist m L)
        have hsort_take : (L.take m).Pairwise (fun a b => a.number < b.number) :=
          hsort.sublist (List.take_sublist m L)
        have hdrop_ge : ∀ b ∈ L.drop m, midEntry.number ≤ b.number := by
          intro b hb
          rw [hdropeq] at hb
          rcases List.mem_cons.mp hb with rfl | hb2
          · exact Nat.le_refl _
          · exact Nat.le_of_lt
              ((List.pairwise_cons.mp (hdropeq ▸ hsort_drop)).1 b hb2)
        have hmem_drop : ∀ b ∈ L.drop m, b ∈ L :=
          fun b hb => (List.drop_sublist m L).mem hb
        have hmem_take : ∀ a ∈ L.take m, a ∈ L :=
          fun a ha => (List.take_sublist m L).mem ha
        have htakefreq : (sumFreq (L.take m) : Int) < bstSentinel := by
          have := sumFreq_take_add_drop L m
          push_cast
          omega
        have hdropfreq : (sumFreq (L.drop m) : Int) < bstSentinel := by
          have := sumFreq_take_add_drop L m
          push_cast
          omega
        have hRight : (if (midEntry.number : Int) = ub then
            some (entryTarget acceptAction midEntry)
          else
            genBstAux acceptAction rejectAction fuel (L.drop m)
              (midEntry.number : Int) ub).isSome := by
          by_cases hub : (midEntry.number : Int) = ub
          · rw [if_pos hub]; rfl
          · rw [if_neg hub]
            apply ih (L.drop m) (acc + sumFreq (L.take m)) (midEntry.number : Int) ub
            · simp only [List.length_drop]
              omega
            · rw [hdropeq]; simp
            · exact hsort_drop
            · intro e he
              exact ⟨by exact_mod_cast hdrop_ge e he, (hbnd e (hmem_drop e he)).2⟩
            · have := (hbnd midEntry hmidmem).2
              omega
            · exact accumFrom_drop L acc m hacc
            · exact hdropfreq
        have hLeft : (if lb = (midEntry.number : Int) - 1 then
            (if ((L.get ⟨m - 1, by omega⟩).number : Int) = lb then
              some (entryTarget acceptAction (L.get ⟨m - 1, by omega⟩))
            else none)
          else
            genBstAux acceptAction rejectAction fuel (L.take m)
              lb ((midEntry.number : Int) - 1)).isSome := by
          set prevEntry := L.get ⟨m - 1, by omega⟩ with hprevdef
          have hprev_take : prevEntry ∈ L.take m := by
            have ha : (L.take m)[m - 1]? = L[m - 1]? :=
              List.getElem?_take_of_lt (by omega)
            have hb : L[m - 1]? = some prevEntry := by
              rw [List.getElem?_eq_getElem (show m - 1 < L.length by omega)]
              simp [hprevdef, List.get_eq_getElem]
            exact List.mem_iff_getElem?.mpr ⟨m - 1, ha.trans hb⟩
          by_cases hlb : lb = (midEntry.number : Int) - 1
          · rw [if_pos hlb]
            have hpn : ((L.get ⟨m - 1, by omega⟩).number : Int) = lb := by
              have hlt2 : prevEntry.number < midEntry.number := htake_lt _ hprev_take
              have hge2 : lb ≤ (prevEntry.number : Int) :=
                (hbnd prevEntry (hmem_take _ hprev_take)).1
              rw [← hprevdef]
              omega
            rw [if_pos hpn]
            rfl
          · rw [if_neg hlb]
            have htkne : L.take m ≠ [] := by
              have : (L.take m).length = m := by
                simp [List.length_take]
                omega
              intro hcon
              rw [hcon] at this
              simp at this
              omega
            obtain ⟨w, hw⟩ := List.exists_mem_of_ne_nil _ htkne
            have hwlt : (w.number : Int) ≤ (midEntry.number : Int) - 1 := by
              have := htake_lt w hw
              omega
            have hwge : lb ≤ (w.number : Int) := (hbnd w (hmem_take _ hw)).1
            apply ih (L.take m) acc lb ((midEntry.number : Int) - 1)
            · simp only [List.length_take]
              omega
            · exact htkne
            · exact hsort_take
            · intro e he
              refine ⟨(hbnd e (hmem_take e he)).1, ?_⟩
              have := htake_lt e he
              omega
            · omega
            · exact accumFrom_take L acc m hacc
            · exact htakefreq
        exact isSome_matchPair _ _ _ hRight hLeft

/-! ## Transport along sorting and accumulation -/

theorem sim_dispatchTarget (arch nr : Nat) (args : List Nat)
    (acceptAction rejectAction : Node) (l : List SyscallPolicyEntry) :
    (match l.find? (fun e => e.number == nr) with
      | some e => simulateNode arch nr args (entryTarget acceptAction e)
      | none => simulateNode arch nr args rejectAction) =
      simulateNode arch nr args (dispatchTarget acceptAction rejectAction l nr) := by
  unfold dispatchTarget
  cases l.find? (fun e => e.number == nr) <;> rfl

theorem dispatchTarget_setAccumulated (a r : Node) (nr : Nat) :
    ∀ (l : List SyscallPolicyEntry) (acc : Nat),
      dispatchTarget a r (setAccumulated acc l) nr = dispatchTarget a r l nr := by
  intro l
  induction l with
  | nil => intro acc; rfl
  | cons e t ih =>
      intro acc
      unfold dispatchTarget at ih ⊢
      simp only [setAccumulated, List.find?]
      by_cases h : (e.number == nr) = true
      · simp only [h]
        rfl
      · simp only [Bool.not_eq_true] at h
        simp only [h]
        exact ih (acc + e.frequency)

theorem dispatchTarget_perm (a r : Node) (nr : Nat)
    (l l' : List SyscallPolicyEntry) (hperm : l.Perm l')
    (hpw : l.Pairwise (fun x y => x.number ≠ y.number)) :
    dispatchTarget a r l nr = dispatchTarget a r l' nr := by
  unfold dispatchTarget
  rw [find_perm_of_distinct nr l l' hperm hpw]

theorem numbers_setAccumulated : ∀ (l : List SyscallPolicyEntry) (acc : Nat),
    (setAccumulated acc l).map (fun e => e.number) = l.map (fun e => e.number) := by
  intro l
  induction l with
  | nil => intro acc; rfl
  | cons e t ih => intro acc; simp [setAccumulated, ih]

theorem sumFreq_setAccumulated : ∀ (l : List SyscallPolicyEntry) (acc : Nat),
    sumFreq (setAccumulated acc l) = sumFreq l := by
  intro l
  induction l with
  | nil => intro acc; rfl
  | cons e t ih => intro acc; simp [setAccumulated, sumFreq] at ih ⊢; exact ih _

theorem length_setAccumulated : ∀ (l : List SyscallPolicyEntry) (acc : Nat),
    (setAccumulated acc l).length = l.length := by
  intro l
  induction l with
  | nil => intro acc; rfl
  | cons e t ih => intro acc; simp [setAccumulated, ih]

theorem sortNumberAsc_perm (l : List SyscallPolicyEntry) :
    (sortNumberAsc l).Perm l :=
  List.perm_insertionSort _ l

theorem sortNumberAsc_pairwise_lt (l : List SyscallPolicyEntry)
    (hpw : l.Pairwise (fun x y => x.number ≠ y.number)) :
    (sortNumberAsc l).Pairwise (fun a b => a.number < b.number) := by
  letI : IsTotal SyscallPolicyEntry (fun a b => a.number ≤ b.number) :=
    ⟨fun a b => Nat.le_total a.number b.number⟩
  letI : IsTrans SyscallPolicyEntry (fun a b => a.number ≤ b.number) :=
    ⟨fun a b c hab hbc => Nat.le_trans hab hbc⟩
  have hsorted : (sortNumberAsc l).Pairwise (fun a b => a.number ≤ b.number) :=
    List.sorted_insertionSort _ l
  have hne : (sortNumberAsc l).Pairwise (fun x y => x.number ≠ y.number) :=
    ((sortNumberAsc_perm l).pairwise_iff (fun h => h.symm)).mpr hpw
  exact (hsorted.and hne).imp fun h => Nat.lt_of_le_of_ne h.1 h.2

theorem mem_number_of_mem_setAccumulated_sort (l : List SyscallPolicyEntry)
    (e : SyscallPolicyEntry) (acc : Nat)
    (he : e ∈ setAccumulated acc (sortNumberAsc l)) :
    ∃ e0 ∈ l, e0.number = e.number := by
  have h1 : e.number ∈ (setAccumulated acc (sortNumberAsc l)).map
      (fun x => x.number) := List.mem_map_of_mem _ he
  rw [numbers_setAccumulated] at h1
  have h2 : e.number ∈ l.map (fun x => x.number) :=
    (((sortNumberAsc_perm l).map (fun x => x.number)).mem_iff).mp h1
  obtain ⟨e0, he0, heq⟩ := List.mem_map.mp h2
  exact ⟨e0, he0, heq⟩

/-- The BST dispatch, when it compiles, simulates like the dispatch
decision over the original entry list. -/
theorem sim_compileEntriesBst (arch nr : Nat) (args : List Nat)
    (acceptAction rejectAction : Node) (entries : List SyscallPolicyEntry)
    (node : Node)
    (hpw : entries.Pairwise (fun a b => a.number ≠ b.number))
    (hbound : ∀ e ∈ entries, (e.number : Int) ≤ (2 : Int) ^ 64 - 1)
    (hnr : (nr : Int) ≤ (2 : Int) ^ 64 - 1)
    (hgen : compileEntriesBst entries acceptAction rejectAction = some node) :
    simulateNode arch nr args node =
      simulateNode arch nr args (dispatchTarget acceptAction rejectAction entries nr) := by
  unfold compileEntriesBst at hgen
  set A := setAccumulated 0 (sortNumberAsc entries) with hA
  have hsortA : A.Pairwise (fun a b => a.number < b.number) := by
    have hS := sortNumberAsc_pairwise_lt entries hpw
    have hmapeq := numbers_setAccumulated (sortNumberAsc entries) 0
    rw [← hA] at hmapeq
    have h1 : (A.map (fun e => e.number)).Pairwise (· < ·) := by
      rw [hmapeq]
      exact List.pairwise_map.mpr hS
    exact List.pairwise_map.mp h1
  have hbndA : ∀ e ∈ A, (0 : Int) ≤ (e.number : Int) ∧
      (e.number : Int) ≤ (2 : Int) ^ 64 - 1 := by
    intro e he
    refine ⟨by positivity, ?_⟩
    obtain ⟨e0, he0, heq⟩ := mem_number_of_mem_setAccumulated_sort entries e 0 he
    rw [← heq]
    exact hbound e0 he0
  have hsim := sim_genBstAux arch nr args acceptAction rejectAction
    A.length A 0 ((2 : Int) ^ 64 - 1) node (by omega) hsortA hbndA
    (by positivity) hnr hgen
  rw [hsim, sim_dispatchTarget, hA, dispatchTarget_setAccumulated]
  exact congrArg (simulateNode arch nr args)
    (dispatchTarget_perm acceptAction rejectAction nr _ _ (sortNumberAsc_perm entries)
      (((sortNumberAsc_perm entries).pairwise_iff (fun h => h.symm)).mpr hpw))

/-- The BST dispatch compiles whenever entries are distinct, in the syscall
domain, and the total frequency stays below the float sentinel. -/
theorem compileEntriesBst_isSome (acceptAction rejectAction : Node)
    (entries : List SyscallPolicyEntry)
    (hne : entries ≠ [])
    (hpw : entries.Pairwise (fun a b => a.number ≠ b.number))
    (hbound : ∀ e ∈ entries, (e.number : Int) ≤ (2 : Int) ^ 64 - 1)
    (htot : (sumFreq entries : Int) < bstSentinel) :
    (compileEntriesBst entries acceptAction rejectAction).isSome := by
  unfold compileEntriesBst
  set A := setAccumulated 0 (sortNumberAsc entries) with hA
  have hlenA : A.length = entries.length := by
    rw [hA, length_setAccumulated]
    exact (sortNumberAsc_perm entries).length_eq
  have hsortA : A.Pairwise (fun a b => a.number < b.number) := by
    have hS := sortNumberAsc_pairwise_lt entries hpw
    have hmapeq := numbers_setAccumulated (sortNumberAsc entries) 0
    rw [← hA] at hmapeq
    have h1 : (A.map (fun e => e.number)).Pairwise (· < ·) := by
      rw [hmapeq]
      exact List.pairwise_map.mpr hS
    exact List.pairwise_map.mp h1
  have hbndA : ∀ e ∈ A, (0 : Int) ≤ (e.number : Int) ∧
      (e.number : Int) ≤ (2 : Int) ^ 64 - 1 := by
    intro e he
    refine ⟨by positivity, ?_⟩
    obtain ⟨e0, he0, heq⟩ := mem_number_of_mem_setAccumulated_sort entries e 0 he
    rw [← heq]
    exact hbound e0 he0
  have hfreqA : (sumFreq A : Int) < bstSentinel := by
    rw [hA, sumFreq_setAccumulated]
    have : sumFreq (sortNumberAsc entries) = sumFreq entries := by
      unfold sumFreq
      exact ((sortNumberAsc_perm entries).map (fun e => e.frequency)).sum_eq
    rw [this]
    exact htot
  apply genBstAux_isSome acceptAction rejectAction A.length A 0 0
    ((2 : Int) ^ 64 - 1) (by omega)
  · intro hcon
    rw [hcon] at hlenA
    simp only [List.length_nil] at hlenA
    exact hne (List.length_eq_zero.mp hlenA.symm)
  · exact hsortA
  · exact hbndA
  · norm_num
  · exact accumFrom_setAccumulated (sortNumberAsc entries) 0
  · exact hfreqA

/-! ## Compile-file level correctness -/

theorem compileFilterStatement_number (fs : FilterStatement) :
    (compileFilterStatement fs).number = fs.syscallNumber := by
  by_cases h : (fs.filters.getLastD default).action = Action.allow <;>
    (rw [List.getLastD_eq_getLast?] at h; simp [compileFilterStatement, h])

theorem compileFilterStatement_frequency (fs : FilterStatement) :
    (compileFilterStatement fs).frequency = fs.frequency := by
  by_cases h : (fs.filters.getLastD default).action = Action.allow <;>
    (rw [List.getLastD_eq_getLast?] at h; simp [compileFilterStatement, h])

theorem sim_entryTarget_allow (arch nr : Nat) (args : List Nat)
    (e : SyscallPolicyEntry) :
    simulateNode arch nr args (entryTarget (Node.terminal Action.allow) e) =
      e.simulate arch nr args := by
  unfold entryTarget SyscallPolicyEntry.simulate
  cases e.filter <;> simp [simulateNode]

/-- A compiled statement, dispatched to through the shared allow sentinel,
simulates as the direct clause evaluation — provided a statement whose
fallback is allow has only allow clause actions. -/
theorem sim_entry_statement (arch nr : Nat) (args : List Nat)
    (fs : FilterStatement)
    (hallow : (fs.filters.getLastD default).action = Action.allow →
      ∀ c ∈ fs.filters.dropLast, c.action = Action.allow) :
    simulateNode arch nr args
        (entryTarget (Node.terminal Action.allow) (compileFilterStatement fs)) =
      evalStatement args fs := by
  rw [sim_entryTarget_allow]
  by_cases hla : (fs.filters.getLastD default).action = Action.allow
  · rw [(sim_compileFilterStatement_of_allow arch nr args fs hla).2]
    unfold evalStatement
    rw [hla]
    exact (evalClauses_allow args _ (hallow hla)).symm
  · exact sim_compileFilterStatement_of_ne_allow arch nr args fs hla

theorem find_entries_eq (stmts : List FilterStatement) (nr : Nat) :
    (stmts.map compileFilterStatement).find? (fun e => e.number == nr) =
      (stmts.find? (fun fs => fs.syscallNumber == nr)).map compileFilterStatement := by
  rw [List.find?_map]
  have hp : ((fun e => e.number == nr) ∘ compileFilterStatement) =
      (fun fs => fs.syscallNumber == nr) := by
    funext fs
    simp [Function.comp, compileFilterStatement_number]
  rw [hp]

theorem entries_pairwise_ne (stmts : List FilterStatement)
    (hpw : stmts.Pairwise (fun a b => a.syscallNumber ≠ b.syscallNumber)) :
    (stmts.map compileFilterStatement).Pairwise
      (fun a b => a.number ≠ b.number) := by
  rw [List.pairwise_map]
  refine hpw.imp ?_
  intro a b h
  rw [compileFilterStatement_number, compileFilterStatement_number]
  exact h

theorem sim_compileEntriesLinear (arch nr : Nat) (args : List Nat)
    (acceptAction rejectAction : Node) (entries : List SyscallPolicyEntry)
    (hpw : entries.Pairwise (fun a b => a.number ≠ b.number)) :
    simulateNode arch nr args (compileEntriesLinear entries acceptAction rejectAction) =
      simulateNode arch nr args
        (dispatchTarget acceptAction rejectAction entries nr) := by
  rw [compileEntriesLinear_eq_linChain, sim_linChain, sim_dispatchTarget]
  exact congrArg (simulateNode arch nr args)
    (dispatchTarget_perm acceptAction rejectAction nr _ _
      (List.perm_insertionSort _ entries)
      (((List.perm_insertionSort _ entries).pairwise_iff (fun h => h.symm)).mpr hpw))

/-- The dispatch decision over the compiled entries is the direct policy
evaluation (under the allow-shortcut proviso). -/
theorem sim_dispatch_evalPolicy (arch nr : Nat) (args : List Nat)
    (p : ParsedPolicy)
    (hallow : ∀ fs ∈ p.filterStatements,
      (fs.filters.getLastD default).action = Action.allow →
      ∀ c ∈ fs.filters.dropLast, c.action = Action.allow) :
    simulateNode arch nr args
        (dispatchTarget (Node.terminal Action.allow)
          (Node.terminal p.defaultAction)
          (p.filterStatements.map compileFilterStatement) nr) =
      evalPolicy p nr args := by
  unfold dispatchTarget evalPolicy
  rw [find_entries_eq]
  cases hfind : p.filterStatements.find? (fun fs => fs.syscallNumber == nr) with
  | none => simp [simulateNode]
  | some fs =>
      simp only [Option.map_some']
      exact sim_entry_statement arch nr args fs
        (hallow fs (List.mem_of_find?_eq_some hfind))

theorem sumFreq_map_compile : ∀ stmts : List FilterStatement,
    sumFreq (stmts.map compileFilterStatement) =
      (stmts.map (fun fs => fs.frequency)).sum := by
  intro stmts
  induction stmts with
  | nil => rfl
  | cons fs t ih =>
      simp only [List.map_cons, sumFreq, List.sum_cons] at ih ⊢
      rw [compileFilterStatement_frequency, ih]

/-- Both dispatch strategies compile (given distinct in-domain syscall
numbers and a total frequency below the float sentinel) to a program that
simulates like the dispatch decision over the compiled entries. -/
theorem compileFile_sim_dispatch (arch nr : Nat) (args : List Nat)
    (strategy : OptimizationStrategy) (killAction : Action) (p : ParsedPolicy)
    (hpw : p.filterStatements.Pairwise
      (fun a b => a.syscallNumber ≠ b.syscallNumber))
    (hbound : ∀ fs ∈ p.filterStatements,
      (fs.syscallNumber : Int) ≤ (2 : Int) ^ 64 - 1)
    (hnr : (nr : Int) ≤ (2 : Int) ^ 64 - 1)
    (htot : (statementsTotalFrequency p : Int) < bstSentinel) :
    ∃ prog, compileFile arch strategy killAction p = some prog ∧
      simulateNode arch nr args prog =
        simulateNode arch nr args
          (dispatchTarget (Node.terminal Action.allow)
            (Node.terminal p.defaultAction)
            (p.filterStatements.map compileFilterStatement) nr) := by
  have hpwE : (p.filterStatements.map compileFilterStatement).Pairwise
      (fun a b => a.number ≠ b.number) := entries_pairwise_ne _ hpw
  have hbndE : ∀ e ∈ p.filterStatements.map compileFilterStatement,
      (e.number : Int) ≤ (2 : Int) ^ 64 - 1 := by
    intro e he
    obtain ⟨fs, hfs, rfl⟩ := List.mem_map.mp he
    rw [compileFilterStatement_number]
    exact hbound fs hfs
  have hfreqE : (sumFreq (p.filterStatements.map compileFilterStatement) : Int) <
      bstSentinel := by
    rw [sumFreq_map_compile]
    exact htot
  cases hstmts : p.filterStatements with
  | nil =>
      refine ⟨Node.validateArch arch killAction (Node.terminal p.defaultAction), ?_, ?_⟩
      · unfold compileFile
        rw [hstmts]
        rfl
      · unfold dispatchTarget
        simp [simulateNode, List.find?]
  | cons st rest =>
      cases strategy with
      | linear =>
          refine ⟨Node.validateArch arch killAction
            (compileEntriesLinear (p.filterStatements.map compileFilterStatement)
              (Node.terminal Action.allow) (Node.terminal p.defaultAction)), ?_, ?_⟩
          · unfold compileFile
            rw [hstmts]
            rfl
          · simp only [simulateNode, beq_self_eq_true, if_true]
            rw [← hstmts]
            exact sim_compileEntriesLinear arch nr args _ _ _ hpwE
      | bst =>
          have hsome := compileEntriesBst_isSome (Node.terminal Action.allow)
            (Node.terminal p.defaultAction)
            (p.filterStatements.map compileFilterStatement)
            (by rw [hstmts]; simp)
            hpwE hbndE hfreqE
          obtain ⟨node, hnode⟩ := Option.isSome_iff_exists.mp hsome
          refine ⟨Node.validateArch arch killAction node, ?_, ?_⟩
          · unfold compileFile
            rw [hstmts]
            simp only [List.map_cons]
            rw [show (compileFilterStatement st :: rest.map compileFilterStatement) =
              (st :: rest).map compileFilterStatement from rfl]
            rw [← hstmts, hnode]
            rfl
          · simp only [simulateNode, beq_self_eq_true, if_true]
            rw [← hstmts]
            exact sim_compileEntriesBst arch nr args _ _ _ node hpwE hbndE hnr hnode

/-- Correctness of `compile_file` (both strategies) against direct policy
evaluation, stated with the hypotheses the data model guarantees:
statements have pairwise distinct syscall numbers inside the 64-bit syscall
domain, the queried syscall number is in the domain, the total frequency
stays below the Python float sentinel `1e99`, and any statement whose
fallback action is allow has only allow clause actions (without the last
hypothesis the compiled program and the direct evaluation genuinely
disagree). -/
theorem compileFile_matches_evalPolicy (arch nr : Nat) (args : List Nat)
    (strategy : OptimizationStrategy) (killAction : Action) (p : ParsedPolicy)
    (hpw : p.filterStatements.Pairwise
      (fun a b => a.syscallNumber ≠ b.syscallNumber))
    (hbound : ∀ fs ∈ p.filterStatements,
      (fs.syscallNumber : Int) ≤ (2 : Int) ^ 64 - 1)
    (hnr : (nr : Int) ≤ (2 : Int) ^ 64 - 1)
    (htot : (statementsTotalFrequency p : Int) < bstSentinel)
    (hallow : ∀ fs ∈ p.filterStatements,
      (fs.filters.getLastD default).action = Action.allow →
      ∀ c ∈ fs.filters.dropLast, c.action = Action.allow) :
    ∃ prog, compileFile arch strategy killAction p = some prog ∧
      simulateNode arch nr args prog = evalPolicy p nr args := by
  obtain ⟨prog, hprog, hsim⟩ := compileFile_sim_dispatch arch nr args strategy
    killAction p hpw hbound hnr htot
  exact ⟨prog, hprog, hsim.trans (sim_dispatch_evalPolicy arch nr args p hallow)⟩

/-! ## Structure of the clause DAG (amended form) -/

theorem conjShape_append (action failPath : Node) (l : List FilterAtom)
    (a : FilterAtom) :
    conjShape action failPath (l ++ [a]) =
      conjShape (Node.atomNode a.argumentIndex a.op a.value action failPath)
        failPath l := by
  induction l with
  | nil => rfl
  | cons b t ih => rw [List.cons_append, conjShape, conjShape, ih]

theorem conj_fold_eq_shape (failPath : Node) :
    ∀ (atoms : List FilterAtom) (action : Node),
      atoms.foldl
          (fun t a => Node.atomNode a.argumentIndex a.op a.value t failPath)
          action =
        conjShape action failPath atoms.reverse := by
  intro atoms
  induction atoms with
  | nil => intro action; rfl
  | cons a rest ih =>
      intro action
      rw [List.foldl_cons, ih, List.reverse_cons, conjShape_append]

theorem exprShape_append (action : Action) (fp : Node)
    (l : List (List FilterAtom)) (c : List FilterAtom) :
    exprShape action fp (l ++ [c]) =
      exprShape action (conjShape (Node.terminal action) fp c.reverse) l := by
  induction l with
  | nil => rfl
  | cons d t ih => rw [List.cons_append, exprShape, exprShape, ih]

theorem buildClauseStep_eq_shape (filt : FilterClause) :
    ∀ fp : Node,
      buildClauseStep fp filt = exprShape filt.action fp filt.expression.reverse := by
  unfold buildClauseStep
  generalize filt.expression = expr
  induction expr with
  | nil => intro fp; rfl
  | cons c rest ih =>
      intro fp
      rw [List.foldl_cons, conj_fold_eq_shape, ih, List.reverse_cons,
        exprShape_append]

theorem clauses_fold_eq_shape :
    ∀ (cs : List FilterClause) (fb : Node),
      (cs.reverse).foldl buildClauseStep fb = clausesShape fb cs := by
  intro cs
  induction cs with
  | nil => intro fb; rfl
  | cons c rest ih =>
      intro fb
      rw [List.reverse_cons, List.foldl_append, ih]
      simp only [List.foldl_cons, List.foldl_nil, clausesShape]
      rw [buildClauseStep_eq_shape]

/-! ## Structure of the BST dispatch tree -/

theorem getD_eq_get (l : List SyscallPolicyEntry) (m : Nat) (h : m < l.length) :
    l.getD m default = l.get ⟨m, h⟩ := by
  rw [List.getD_eq_getElem?_getD, List.getElem?_eq_getElem h]
  simp [List.get_eq_getElem]

theorem genBstAux_shape (acceptAction rejectAction : Node) :
    ∀ (fuel : Nat) (l : List SyscallPolicyEntry) (lb ub : Int) (node : Node),
      genBstAux acceptAction rejectAction fuel l lb ub = some node →
      BstShape acceptAction rejectAction l lb ub node := by
  intro fuel
  induction fuel with
  | zero =>
      intro l lb ub node hgen
      obtain _ | ⟨e, _ | ⟨e1, rest⟩⟩ := l
      · simp [genBstAux] at hgen
      · simp only [genBstAux] at hgen
        split at hgen
        · cases hgen
          exact ⟨e, rfl, by assumption, rfl, rfl, rfl⟩
        · cases hgen
      · simp [genBstAux] at hgen
  | succ fuel ih =>
      intro l lb ub node hgen
      obtain _ | ⟨e0, _ | ⟨e1, rest⟩⟩ := l
      · simp [genBstAux] at hgen
      · simp only [genBstAux] at hgen
        split at hgen
        · cases hgen
          exact ⟨e0, rfl, by assumption, rfl, rfl, rfl⟩
        · cases hgen
      · rw [genBstAux] at hgen
        split at hgen
        case isFalse => cases hgen
        case isTrue h =>
          simp only [] at hgen
          set L := e0 :: e1 :: rest with hL
          set m := (bstMidpoint L).toNat with hmdef
          have hm1 : 1 ≤ m := by
            have := h.1
            omega
          have hmlen : m < L.length := h.2
          have hgd : L.getD m default = L.get ⟨m, h.2⟩ := getD_eq_get L m h.2
          have hgd1 : L.getD (m - 1) default = L.get ⟨m - 1, by omega⟩ :=
            getD_eq_get L (m - 1) (by omega)
          split at hgen
          case h_2 => cases hgen
          case h_1 rightSubtree leftSubtree heqr heql =>
            cases hgen
            refine ⟨m, hm1, hmlen, by rw [hgd], ?_, ?_⟩
            · split at heqr
              · rename_i hub
                cases heqr
                exact Or.inl ⟨by rw [hgd]; exact hub, by rw [hgd]⟩
              · rename_i hub
                refine Or.inr ⟨by rw [hgd]; exact hub, ?_⟩
                rw [hgd]
                exact ih (L.drop m) _ ub rightSubtree heqr
            · split at heql
              · rename_i hlb
                split at heql
                · rename_i hprev
                  cases heql
                  exact Or.inl ⟨by rw [hgd]; exact hlb, by rw [hgd1]⟩
                · cases heql
              · rename_i hlb
                refine Or.inr ⟨by rw [hgd]; exact hlb, ?_⟩
                rw [hgd]
                exact ih (L.take m) lb _ leftSubtree heql

/-! ## The claims -/

/-- C1 (amended): for every policy, architecture and strategy, simulating
the program compiled by `compile_file` on the matching architecture equals
direct evaluation of the policy's clauses — given the data-model invariants
(pairwise distinct statement syscall numbers inside `[0, 2^64 - 1]`, the
queried number inside the domain, total declared frequency below the exact
value of the Python float `1e99`) and the proviso, forced by the
counterexample, that a statement whose final clause's action is
unconditional allow has only allow actions in its earlier clauses. -/
theorem claim_C1 (arch nr : Nat) (args : List Nat)
    (strategy : OptimizationStrategy) (killAction : Action) (p : ParsedPolicy)
    (hpw : p.filterStatements.Pairwise
      (fun a b => a.syscallNumber ≠ b.syscallNumber))
    (hbound : ∀ fs ∈ p.filterStatements,
      (fs.syscallNumber : Int) ≤ (2 : Int) ^ 64 - 1)
    (hnr : (nr : Int) ≤ (2 : Int) ^ 64 - 1)
    (htot : (statementsTotalFrequency p : Int) < bstSentinel)
    (hallow : ∀ fs ∈ p.filterStatements,
      (fs.filters.getLastD default).action = Action.allow →
      ∀ c ∈ fs.filters.dropLast, c.action = Action.allow) :
    ∃ prog, compileFile arch strategy killAction p = some prog ∧
      simulateNode arch nr args prog = evalPolicy p nr args :=
  compileFile_matches_evalPolicy arch nr args strategy killAction p
    hpw hbound hnr htot hallow

/-- C1, counterexample to the claim as stated: in a policy whose statement
has an earlier kill clause and a final allow clause, the compiled program
(default-allow shortcut) allows a syscall that direct clause evaluation
kills. -/
theorem claim_C1_counterexample :
    (compileFile 7 OptimizationStrategy.linear Action.kill
        allowShortcutPolicy).map (simulateNode 7 0 [1]) = some Action.allow ∧
      evalPolicy allowShortcutPolicy 0 [1] = Action.kill ∧
      Action.allow ≠ Action.kill := by
  decide

/-- C1, witness: the amended claim applied to the spec's worked example
under the BST strategy at syscall 1 with `arg0 = 1`. -/
theorem claim_C1_witness :
    ∃ prog, compileFile 7 OptimizationStrategy.bst Action.kill examplePolicy =
        some prog ∧
      simulateNode 7 1 [1] prog = evalPolicy examplePolicy 1 [1] :=
  claim_C1 7 1 [1] OptimizationStrategy.bst Action.kill examplePolicy
    (by decide) (by decide) (by decide) (by decide) (by decide)

/-- C2: under the data-model invariants, the linear and the BST strategies
compile the same policy to programs that agree on the simulated action for
every in-domain syscall number and argument list. -/
theorem claim_C2 (arch nr : Nat) (args : List Nat) (killAction : Action)
    (p : ParsedPolicy)
    (hpw : p.filterStatements.Pairwise
      (fun a b => a.syscallNumber ≠ b.syscallNumber))
    (hbound : ∀ fs ∈ p.filterStatements,
      (fs.syscallNumber : Int) ≤ (2 : Int) ^ 64 - 1)
    (hnr : (nr : Int) ≤ (2 : Int) ^ 64 - 1)
    (htot : (statementsTotalFrequency p : Int) < bstSentinel) :
    ∃ progLinear progBst,
      compileFile arch OptimizationStrategy.linear killAction p = some progLinear ∧
      compileFile arch OptimizationStrategy.bst killAction p = some progBst ∧
      simulateNode arch nr args progLinear = simulateNode arch nr args progBst := by
  obtain ⟨pl, hl1, hl2⟩ := compileFile_sim_dispatch arch nr args
    OptimizationStrategy.linear killAction p hpw hbound hnr htot
  obtain ⟨pb, hb1, hb2⟩ := compileFile_sim_dispatch arch nr args
    OptimizationStrategy.bst killAction p hpw hbound hnr htot
  exact ⟨pl, pb, hl1, hb1, hl2.trans hb2.symm⟩

/-- C2, witness: both strategies on the spec's worked example at syscall
999 (unmatched). -/
theorem claim_C2_witness :
    ∃ progLinear progBst,
      compileFile 7 OptimizationStrategy.linear Action.kill examplePolicy =
        some progLinear ∧
      compileFile 7 OptimizationStrategy.bst Action.kill examplePolicy =
        some progBst ∧
      simulateNode 7 999 [] progLinear = simulateNode 7 999 [] progBst :=
  claim_C2 7 999 [] Action.kill examplePolicy
    (by decide) (by decide) (by decide) (by decide)

/-- C3 (amended): for a statement whose final clause's action is not
unconditional allow, the decision DAG evaluates a clause's conjunctions in
reverse declaration order and each conjunction's atoms in reverse
declaration order: each atom node's TRUE branch points to the node testing
the previous atom (the first atom's true branch being the clause's action)
while every atom node's FALSE branch is the conjunction's overall false
path, and one conjunction's overall false path is the chain of the
previously declared conjunctions, bottoming out at the next clause's chain
and finally the fallback action — the shape captured by `clausesShape`. -/
theorem claim_C3 (fs : FilterStatement) (cs : List FilterClause)
    (lastClause : FilterClause)
    (hfs : fs.filters = cs ++ [lastClause])
    (hna : lastClause.action ≠ Action.allow) :
    (compileFilterStatement fs).filter =
      some (clausesShape (Node.terminal lastClause.action) cs) := by
  have hlast : fs.filters.getLastD default = lastClause := by
    rw [hfs, List.getLastD_concat]
  have hdrop : fs.filters.dropLast = cs := by
    rw [hfs, List.dropLast_concat]
  simp only [compileFilterStatement, hlast, hdrop, if_neg hna]
  rw [clauses_fold_eq_shape]

/-- C3, counterexample to the claim as stated: for the conjunction
`arg0 == 1 ∧ arg1 == 2` with clause action kill and fallback errno 1, the
DAG's root tests the LAST atom (`arg1 == 2`); its true branch is the node
testing the first atom — not the clause's action — and its false branch is
the overall false path (errno 1) — not the next atom's node. -/
theorem claim_C3_counterexample :
    (compileFilterStatement chainStatement).filter =
      some (Node.atomNode 1 AtomOp.eq 2
        (Node.atomNode 0 AtomOp.eq 1 (Node.terminal Action.kill)
          (Node.terminal (Action.errno 1)))
        (Node.terminal (Action.errno 1))) ∧
      Node.atomNode 0 AtomOp.eq 1 (Node.terminal Action.kill)
          (Node.terminal (Action.errno 1)) ≠ Node.terminal Action.kill ∧
      Node.terminal (Action.errno 1) ≠
        Node.atomNode 0 AtomOp.eq 1 (Node.terminal Action.kill)
          (Node.terminal (Action.errno 1)) := by
  decide

/-- C3, witness: the amended shape at the two-atom example statement. -/
theorem claim_C3_witness :
    (compileFilterStatement chainStatement).filter =
      some (clausesShape (Node.terminal (Action.errno 1))
        [{ expression := [[⟨0, AtomOp.eq, 1⟩, ⟨1, AtomOp.eq, 2⟩]],
           action := Action.kill }]) :=
  claim_C3 chainStatement
    [{ expression := [[⟨0, AtomOp.eq, 1⟩, ⟨1, AtomOp.eq, 2⟩]],
       action := Action.kill }]
    { expression := [], action := Action.errno 1 }
    (by decide) (by decide)

/-- C4 (amended): for every slice of two or more entries with consistent
accumulated frequencies and total below the float sentinel, the chosen
split index `j` satisfies `1 ≤ j < n` and minimizes the absolute difference
between the total frequency of the entries at indices `0..j` (midpoint
INCLUDED on the left of the objective, although the midpoint entry itself
goes to the right subtree) and the total frequency of the entries strictly
right of `j`; ties resolve to the smallest such index. -/
theorem claim_C4 (l : List SyscallPolicyEntry) (acc : Nat)
    (hacc : accumFrom acc l) (h2 : 2 ≤ l.length)
    (htot : (sumFreq l : Int) < bstSentinel) :
    ∃ j : Nat, 1 ≤ j ∧ j < l.length ∧ bstMidpoint l = (j : Int) ∧
      ∀ i : Nat, 1 ≤ i → i < l.length →
        codeSplitCost l j ≤ codeSplitCost l i ∧
          (codeSplitCost l i = codeSplitCost l j → j ≤ i) := by
  have hne : l ≠ [] := by
    intro hcon
    rw [hcon] at h2
    simp at h2
  have hc : (bstCandidate (bstPrevAccumulated l) (bstLastAccumulated l) 1
      (l.getD 1 default)).1 < bstSentinel := by
    rw [bstCandidate_cost_eq l acc 1 hne hacc (by omega)]
    exact lt_of_le_of_lt (codeSplitCost_le_total l 1) htot
  obtain ⟨j, hjlen, hj1, hmid, hmin⟩ := bstMidpoint_spec l h2 hc
  refine ⟨j, hj1, hjlen, hmid, ?_⟩
  intro i hi1 hilen
  have hlex := hmin i hilen hi1
  rw [bstCandidate_eq_pair l acc j hne hacc hjlen,
    bstCandidate_eq_pair l acc i hne hacc hilen] at hlex
  rcases hlex with hlt | ⟨heq, hle⟩
  · simp only at hlt
    exact ⟨le_of_lt hlt, fun hEq => by omega⟩
  · simp only at heq hle
    exact ⟨le_of_eq heq, fun _ => by exact_mod_cast hle⟩

/-- C4, counterexample to the claim as stated: with frequencies 1, 1, 4 the
code chooses split index 1, but the objective described by the claim (total
strictly left of `i` against total at-or-right of `i`) is strictly smaller
at index 2, so the chosen index does not minimize it. -/
theorem claim_C4_counterexample :
    bstMidpoint c4Entries = 1 ∧
      specSplitCost c4Entries 2 < specSplitCost c4Entries 1 := by
  decide

/-- C4, witness: the amended claim at the frequency-1,1,4 slice. -/
theorem claim_C4_witness :
    ∃ j : Nat, 1 ≤ j ∧ j < c4Entries.length ∧ bstMidpoint c4Entries = (j : Int) ∧
      ∀ i : Nat, 1 ≤ i → i < c4Entries.length →
        codeSplitCost c4Entries j ≤ codeSplitCost c4Entries i ∧
          (codeSplitCost c4Entries i = codeSplitCost c4Entries j → j ≤ i) :=
  claim_C4 c4Entries 0 (accumFrom_setAccumulated _ 0) (by decide) (by decide)

/-- C5: the linear strategy compiles a non-empty entry list to the chain
`linChain` over the frequency-descending stable sort — each node an
equality test on the entry's syscall number, matching into the entry's
filter DAG or the accept action, mismatching into the next node, the final
mismatch path being the reject action — and the first entry tested is a
member of maximal frequency. -/
theorem claim_C5 (entries : List SyscallPolicyEntry)
    (acceptAction rejectAction : Node) (hne : entries ≠ []) :
    compileEntriesLinear entries acceptAction rejectAction =
      linChain acceptAction rejectAction (sortFreqDesc entries) ∧
    (sortFreqDesc entries).headD default ∈ entries ∧
    ∀ e ∈ entries,
      e.frequency ≤ ((sortFreqDesc entries).headD default).frequency := by
  letI : IsTotal SyscallPolicyEntry (fun a b => b.frequency ≤ a.frequency) :=
    ⟨fun a b => (Nat.le_total b.frequency a.frequency)⟩
  letI : IsTrans SyscallPolicyEntry (fun a b => b.frequency ≤ a.frequency) :=
    ⟨fun a b c hab hbc => Nat.le_trans hbc hab⟩
  have hsorted : (sortFreqDesc entries).Sorted
      (fun a b => b.frequency ≤ a.frequency) :=
    List.sorted_insertionSort _ entries
  have hperm : (sortFreqDesc entries).Perm entries :=
    List.perm_insertionSort _ entries
  have hsne : sortFreqDesc entries ≠ [] := by
    intro hcon
    rw [← List.length_pos] at hne
    rw [← hperm.length_eq, hcon] at hne
    simp at hne
  obtain ⟨h0, t, hS⟩ := List.exists_cons_of_ne_nil hsne
  refine ⟨compileEntriesLinear_eq_linChain entries acceptAction rejectAction,
    ?_, ?_⟩
  · rw [hS]
    simp only [List.headD_cons]
    exact hperm.mem_iff.mp (by rw [hS]; exact List.mem_cons_self _ _)
  · intro e he
    have he2 : e ∈ sortFreqDesc entries := hperm.mem_iff.mpr he
    rw [hS] at he2 hsorted ⊢
    simp only [List.headD_cons]
    rcases List.mem_cons.mp he2 with rfl | he3
    · exact Nat.le_refl _
    · exact List.rel_of_sorted_cons hsorted e he3

/-- C5, witness: the linear chain over three concrete entries. -/
theorem claim_C5_witness :
    compileEntriesLinear [plainEntry 3 5, plainEntry 4 7, plainEntry 9 6]
        (Node.terminal Action.allow) (Node.terminal Action.kill) =
      linChain (Node.terminal Action.allow) (Node.terminal Action.kill)
        (sortFreqDesc [plainEntry 3 5, plainEntry 4 7, plainEntry 9 6]) ∧
    (sortFreqDesc [plainEntry 3 5, plainEntry 4 7, plainEntry 9 6]).headD default ∈
      [plainEntry 3 5, plainEntry 4 7, plainEntry 9 6] ∧
    ∀ e ∈ [plainEntry 3 5, plainEntry 4 7, plainEntry 9 6],
      e.frequency ≤
        ((sortFreqDesc [plainEntry 3 5, plainEntry 4 7, plainEntry 9 6]).headD
          default).frequency :=
  claim_C5 [plainEntry 3 5, plainEntry 4 7, plainEntry 9 6]
    (Node.terminal Action.allow) (Node.terminal Action.kill) (by decide)

/-- C6: every tree `_generate_syscall_bst` builds has the `BstShape`
structure: internal nodes are unsigned `syscall number ≥ split` comparisons
whose first branch — the one `simulateNode` takes when the comparison holds
— is the right subtree, and a subtree whose bound range collapses onto the
syscall number at its edge is that entry's action (filter DAG or accept
action) emitted directly in place of a leaf. -/
theorem claim_C6 (acceptAction rejectAction : Node)
    (l : List SyscallPolicyEntry) (lb ub : Int) (node : Node)
    (hgen : generateSyscallBst acceptAction rejectAction l lb ub = some node) :
    BstShape acceptAction rejectAction l lb ub node :=
  genBstAux_shape acceptAction rejectAction l.length l lb ub node hgen

/-- C6, witness: the shape of the tree over two concrete entries. -/
theorem claim_C6_witness :
    BstShape (Node.terminal Action.allow) (Node.terminal Action.kill)
      (setAccumulated 0 [plainEntry 3 5, plainEntry 4 7]) 0 ((2 : Int) ^ 64 - 1)
      (Node.syscallEntry SyscallOp.jge 4
        (Node.syscallEntry SyscallOp.jeq 4 (Node.terminal Action.allow)
          (Node.terminal Action.kill))
        (Node.syscallEntry SyscallOp.jeq 3 (Node.terminal Action.allow)
          (Node.terminal Action.kill))) :=
  claim_C6 (Node.terminal Action.allow) (Node.terminal Action.kill)
    (setAccumulated 0 [plainEntry 3 5, plainEntry 4 7]) 0 ((2 : Int) ^ 64 - 1)
    (Node.syscallEntry SyscallOp.jge 4
      (Node.syscallEntry SyscallOp.jeq 4 (Node.terminal Action.allow)
        (Node.terminal Action.kill))
      (Node.syscallEntry SyscallOp.jeq 3 (Node.terminal Action.allow)
        (Node.terminal Action.kill)))
    (by decide)

/-- C7: a statement whose final clause's action is unconditional allow
compiles to an entry with no decision DAG, and simulating that entry
returns allow for every architecture, syscall number and argument list. -/
theorem claim_C7 (fs : FilterStatement) (arch nr : Nat) (args : List Nat)
    (ha : (fs.filters.getLastD default).action = Action.allow) :
    (compileFilterStatement fs).filter = none ∧
      (compileFilterStatement fs).simulate arch nr args = Action.allow :=
  sim_compileFilterStatement_of_allow arch nr args fs ha

/-- C7, witness: the unconditional-allow `read` statement. -/
theorem claim_C7_witness :
    (compileFilterStatement exampleReadStatement).filter = none ∧
      (compileFilterStatement exampleReadStatement).simulate 7 0 [3] =
        Action.allow :=
  claim_C7 exampleReadStatement 7 0 [3] (by decide)

/-- C8: a policy with zero filter statements compiles to the architecture
guard directly followed by the declared default action, and simulating it
under the matching architecture returns the default action for every
syscall number and argument list. -/
theorem claim_C8 (arch nr : Nat) (args : List Nat)
    (strategy : OptimizationStrategy) (killAction : Action) (p : ParsedPolicy)
    (hempty : p.filterStatements = []) :
    compileFile arch strategy killAction p =
      some (Node.validateArch arch killAction (Node.terminal p.defaultAction)) ∧
    simulateNode arch nr args
        (Node.validateArch arch killAction (Node.terminal p.defaultAction)) =
      p.defaultAction := by
  constructor
  · unfold compileFile
    rw [hempty]
    rfl
  · simp [simulateNode]

/-- C8, witness: the empty policy with default errno 7. -/
theorem claim_C8_witness :
    compileFile 3 OptimizationStrategy.bst Action.kill
        { filterStatements := [], defaultAction := Action.errno 7 } =
      some (Node.validateArch 3 Action.kill (Node.terminal (Action.errno 7))) ∧
    simulateNode 3 42 [1, 2]
        (Node.validateArch 3 Action.kill (Node.terminal (Action.errno 7))) =
      Action.errno 7 :=
  claim_C8 3 42 [1, 2] OptimizationStrategy.bst Action.kill
    { filterStatements := [], defaultAction := Action.errno 7 } rfl

/-- C9: compilation is deterministic — two calls of `compile_file` with
equal policy, architecture, strategy and kill action produce the same
program (the embedding is a pure function of those inputs; the only
reordering, the entry sorts, is the deterministic stable sort). -/
theorem claim_C9 (arch1 arch2 : Nat) (s1 s2 : OptimizationStrategy)
    (k1 k2 : Action) (p1 p2 : ParsedPolicy)
    (ha : arch1 = arch2) (hs : s1 = s2) (hk : k1 = k2) (hp : p1 = p2) :
    compileFile arch1 s1 k1 p1 = compileFile arch2 s2 k2 p2 := by
  subst ha hs hk hp
  rfl

/-- C9, witness: two identical compilations of the worked example. -/
theorem claim_C9_witness :
    compileFile 7 OptimizationStrategy.bst Action.kill examplePolicy =
      compileFile 7 OptimizationStrategy.bst Action.kill examplePolicy :=
  claim_C9 7 7 OptimizationStrategy.bst OptimizationStrategy.bst
    Action.kill Action.kill examplePolicy examplePolicy rfl rfl rfl rfl

/-- C10 (amended): for a non-empty entry list with pairwise distinct
syscall numbers in `[0, 2^64 - 1]` whose total frequency is below the EXACT
integer value of the Python float `1e99` (which is smaller than `10^99`),
the BST construction succeeds — every assertion in `_generate_syscall_bst`
holds, modelled as the builder returning `some`. -/
theorem claim_C10 (entries : List SyscallPolicyEntry)
    (acceptAction rejectAction : Node)
    (hne : entries ≠ [])
    (hpw : entries.Pairwise (fun a b => a.number ≠ b.number))
    (hbound : ∀ e ∈ entries, (e.number : Int) ≤ (2 : Int) ^ 64 - 1)
    (htot : (sumFreq entries : Int) < bstSentinel) :
    (compileEntriesBst entries acceptAction rejectAction).isSome :=
  compileEntriesBst_isSome acceptAction rejectAction entries hne hpw hbound htot

/-- C10, counterexample to the claim as stated: two entries with distinct
in-domain syscall numbers and non-negative frequencies totalling the exact
integer value of the float `1e99` — strictly below `10^99` — make the
midpoint come out as `-1` (the candidate cost ties the float sentinel and
the tie-break keeps index `-1`), so the `midpoint >= 1` assertion fails:
the builder returns `none`. -/
theorem claim_C10_counterexample :
    c10Entries ≠ [] ∧
    c10Entries.Pairwise (fun a b => a.number ≠ b.number) ∧
    (∀ e ∈ c10Entries, (e.number : Int) ≤ (2 : Int) ^ 64 - 1) ∧
    (sumFreq c10Entries : Int) < 10 ^ 99 ∧
    compileEntriesBst c10Entries (Node.terminal Action.allow)
      (Node.terminal Action.kill) = none := by
  decide

/-- C10, witness: the amended bound at a two-entry list. -/
theorem claim_C10_witness :
    (compileEntriesBst [plainEntry 3 5, plainEntry 4 7]
      (Node.terminal Action.allow) (Node.terminal Action.kill)).isSome :=
  claim_C10 [plainEntry 3 5, plainEntry 4 7] (Node.terminal Action.allow)
    (Node.terminal Action.kill) (by decide) (by decide) (by decide) (by decide)

end Minijail
